import Mathlib

/-!
Verification of the tool-registration and dispatch core of the repository
(`composite_demo/src/tools/tool_registry.py` and `interface.py`), as a shallow
embedding in Lean 4.  Python strings are `String`/`List Char`; Python dicts
keyed by strings are association lists with insert-or-overwrite semantics;
a Python function that may raise is modelled with `Except`, the error value
standing for the text that `traceback.format_exc()` renders for the raised
exception.
-/

namespace GLM

/-! ## Python string primitives used by `dispatch_tool` -/

/-- Characters treated as whitespace by Python `str.strip()` (ASCII part). -/
def isPySpace (c : Char) : Bool :=
  c = ' ' || c = '\t' || c = '\n' || c = '\r' || c = Char.ofNat 11 || c = Char.ofNat 12

/-- The opening-brace character (ASCII 123). -/
def lbrace : Char := Char.ofNat 123

/-- The closing-brace character (ASCII 125). -/
def rbrace : Char := Char.ofNat 125

/-- `str.lstrip()` on a character list. -/
def lstripWs (l : List Char) : List Char := l.dropWhile isPySpace

/-- `str.rstrip()` on a character list. -/
def rstripWs (l : List Char) : List Char := (l.reverse.dropWhile isPySpace).reverse

/-- `str.strip()` on a character list: remove leading and trailing whitespace. -/
def stripWs (l : List Char) : List Char := rstripWs (lstripWs l)

/-- `str.rstrip(chars)` on a character list: Python treats the argument as a
set of characters and removes the maximal trailing run of characters drawn
from that set. -/
def rstripSet (cs : List Char) (l : List Char) : List Char :=
  (l.reverse.dropWhile (fun c => c ∈ cs)).reverse

/-- The distinct characters of the end-of-call marker string
`"<|observation|>"`; Python `str.rstrip` interprets its argument as this
character set. -/
def markerChars : List Char :=
  ['<', '|', 'o', 'b', 's', 'e', 'r', 'v', 'a', 't', 'i', 'n', '>']

/-- The literal end-of-call marker string `"<|observation|>"`. -/
def markerString : String := "<|observation|>"

/-! ## JSON values and `json.loads`

A recursive-descent parser modelling Python `json.loads` closely enough for
the dispatch control flow: success exactly on well-formed JSON text, with a
textual error detail on failure.  Numeric literals are kept as their source
text (their numeric value plays no role in dispatch).  Fuel makes the
recursion structural. -/

inductive JValue where
  | null
  | bool (b : Bool)
  | num (lit : String)
  | str (s : String)
  | arr (elems : List JValue)
  | obj (entries : List (String × JValue))

/-- JSON whitespace characters (as in Python json). -/
def isJsonWs (c : Char) : Bool :=
  c = ' ' || c = '\t' || c = '\n' || c = '\r'

def skipWs (l : List Char) : List Char := l.dropWhile isJsonWs

def hexVal (c : Char) : Option Nat :=
  if '0' ≤ c ∧ c ≤ '9' then some (c.toNat - '0'.toNat)
  else if 'a' ≤ c ∧ c ≤ 'f' then some (c.toNat - 'a'.toNat + 10)
  else if 'A' ≤ c ∧ c ≤ 'F' then some (c.toNat - 'A'.toNat + 10)
  else none

def escChar (c : Char) : Option Char :=
  if c = '"' then some '"'
  else if c = '\\' then some '\\'
  else if c = '/' then some '/'
  else if c = 'b' then some (Char.ofNat 8)
  else if c = 'f' then some (Char.ofNat 12)
  else if c = 'n' then some '\n'
  else if c = 'r' then some '\r'
  else if c = 't' then some '\t'
  else none

/-- Parse the body of a JSON string after the opening quote; returns the
decoded characters and the remaining input. -/
def parseStr : Nat → List Char → Except String (List Char × List Char)
  | 0, _ => .error "Unterminated string (fuel)"
  | _ + 1, [] => .error "Unterminated string starting at"
  | f + 1, c :: rest =>
    if c = '"' then .ok ([], rest)
    else if c = '\\' then
      match rest with
      | [] => .error "Unterminated string starting at"
      | e :: rest2 =>
        if e = 'u' then
          match rest2 with
          | h1 :: h2 :: h3 :: h4 :: rest3 =>
            match hexVal h1, hexVal h2, hexVal h3, hexVal h4 with
            | some a, some b, some c2, some d => do
              let (s, r) ← parseStr f rest3
              .ok (Char.ofNat (((a * 16 + b) * 16 + c2) * 16 + d) :: s, r)
            | _, _, _, _ => .error "Invalid hex escape"
          | _ => .error "Invalid hex escape"
        else
          match escChar e with
          | some ec => do
            let (s, r) ← parseStr f rest2
            .ok (ec :: s, r)
          | none => .error "Invalid escape"
    else if c.toNat < 32 then .error "Invalid control character"
    else do
      let (s, r) ← parseStr f rest
      .ok (c :: s, r)

/-- Parse the magnitude of a JSON number (integer part, optional fraction
and exponent), `sign` being the already-consumed sign characters; follows
the json number grammar. -/
def parseNumMag (sign : List Char) (cs1 : List Char) : Except String (String × List Char) :=
  match cs1 with
  | [] => .error "Expecting value"
  | d :: ds =>
    if d = '0' then
      let (frac, cs2) := numFrac ds
      let (ex, cs3) := numExp cs2
      .ok (String.mk (sign ++ ['0'] ++ frac ++ ex), cs3)
    else if d.isDigit then
      let intDigits := cs1.takeWhile Char.isDigit
      let cs2 := cs1.dropWhile Char.isDigit
      let (frac, cs3) := numFrac cs2
      let (ex, cs4) := numExp cs3
      .ok (String.mk (sign ++ intDigits ++ frac ++ ex), cs4)
    else .error "Expecting value"
where
  /-- Optional fraction part: a dot followed by at least one digit. -/
  numFrac (cs : List Char) : List Char × List Char :=
    match cs with
    | '.' :: r =>
      let ds := r.takeWhile Char.isDigit
      if ds.isEmpty then ([], cs) else ('.' :: ds, r.dropWhile Char.isDigit)
    | _ => ([], cs)
  /-- Optional exponent part: e or E, optional sign, at least one digit. -/
  numExp (cs : List Char) : List Char × List Char :=
    match cs with
    | e :: r =>
      if e = 'e' ∨ e = 'E' then
        let (sgn, r2) :=
          match r with
          | s :: r2 => if s = '+' ∨ s = '-' then ([s], r2) else (([] : List Char), r)
          | [] => ([], r)
        let ds := r2.takeWhile Char.isDigit
        if ds.isEmpty then ([], cs) else (e :: sgn ++ ds, r2.dropWhile Char.isDigit)
      else ([], cs)
    | [] => ([], cs)

/-- Parse a JSON number starting at the head of the input: an optional
leading minus sign, then the magnitude. -/
def parseNumber (cs : List Char) : Except String (String × List Char) :=
  match cs with
  | '-' :: r => parseNumMag ['-'] r
  | _ => parseNumMag [] cs

mutual

/-- Parse one JSON value (leading whitespace allowed); returns the value and
the remaining input. -/
def parseValue : Nat → List Char → Except String (JValue × List Char)
  | 0, _ => .error "Maximum recursion depth exceeded"
  | f + 1, cs =>
    match skipWs cs with
    | [] => .error "Expecting value"
    | c :: rest =>
      if c = '"' then do
        let (s, r) ← parseStr (f + 1) rest
        .ok (.str (String.mk s), r)
      else if c = lbrace then parseObjBody f rest
      else if c = '[' then parseArrBody f rest
      else
        match c :: rest with
        | 't' :: 'r' :: 'u' :: 'e' :: r => .ok (.bool true, r)
        | 'f' :: 'a' :: 'l' :: 's' :: 'e' :: r => .ok (.bool false, r)
        | 'n' :: 'u' :: 'l' :: 'l' :: r => .ok (.null, r)
        | l => do
          let (lit, r) ← parseNumber l
          .ok (.num lit, r)

/-- Parse the inside of a JSON object, the opening brace already consumed. -/
def parseObjBody (f : Nat) (cs : List Char) : Except String (JValue × List Char) :=
  match f with
  | 0 => .error "Maximum recursion depth exceeded"
  | f + 1 =>
    match skipWs cs with
    | [] => .error "Expecting property name enclosed in double quotes"
    | c :: rest =>
      if c = rbrace then .ok (.obj [], rest)
      else if c = '"' then do
        let (k, r1) ← parseStr (f + 1) rest
        parseObjRest f (String.mk k) r1 []
      else .error "Expecting property name enclosed in double quotes"

/-- After a member key has been read: expect a colon, a value, then either a
comma and further members or the closing brace.  `acc` holds the members
already read, in order. -/
def parseObjRest (f : Nat) (key : String) (cs : List Char)
    (acc : List (String × JValue)) : Except String (JValue × List Char) :=
  match f with
  | 0 => .error "Maximum recursion depth exceeded"
  | f + 1 =>
    match skipWs cs with
    | ':' :: r1 => do
      let (v, r2) ← parseValue f r1
      match skipWs r2 with
      | ',' :: r3 =>
        (match skipWs r3 with
         | '"' :: r4 => do
           let (k2, r5) ← parseStr f r4
           parseObjRest f (String.mk k2) r5 (acc ++ [(key, v)])
         | _ => .error "Expecting property name enclosed in double quotes")
      | c :: r3 =>
        if c = rbrace then .ok (.obj (acc ++ [(key, v)]), r3)
        else .error "Expecting comma delimiter"
      | [] => .error "Expecting comma delimiter"
    | _ => .error "Expecting colon delimiter"

/-- Parse the inside of a JSON array, the opening bracket already consumed. -/
def parseArrBody (f : Nat) (cs : List Char) : Except String (JValue × List Char) :=
  match f with
  | 0 => .error "Maximum recursion depth exceeded"
  | f + 1 =>
    match skipWs cs with
    | ']' :: rest => .ok (.arr [], rest)
    | _ => parseArrRest f cs []

/-- Parse the members of a non-empty JSON array. -/
def parseArrRest (f : Nat) (cs : List Char) (acc : List JValue) :
    Except String (JValue × List Char) :=
  match f with
  | 0 => .error "Maximum recursion depth exceeded"
  | f + 1 => do
    let (v, r1) ← parseValue f cs
    match skipWs r1 with
    | ',' :: r2 => parseArrRest f r2 (acc ++ [v])
    | ']' :: r2 => .ok (.arr (acc ++ [v]), r2)
    | _ => .error "Expecting comma delimiter"

end

/-- `json.loads` on a character list: parse one value and require only
whitespace to remain. -/
def jsonLoads (cs : List Char) : Except String JValue := do
  let (v, rest) ← parseValue (cs.length + 16) cs
  if (skipWs rest).isEmpty then .ok v else .error "Extra data"

/-! ## `interface.py`: the `ToolObservation` dataclass -/

/-- `ToolObservation` from `interface.py`.  The Python `metadata: Any` field
is modelled as an optional string; dispatch never sets it. -/
structure ToolObservation where
  content_type : String
  text : String
  image_url : Option String := none
  role_metadata : Option String := none
  metadata : Option String := none
  deriving Repr, DecidableEq

/-! ## `tool_registry.py`: registration

`register_tool` inspects a Python function: its `__name__`, its docstring
(`inspect.getdoc`, `None` when the function has none), and its parameters
with their annotations.  A parameter annotation is either absent
(`inspect.Parameter.empty`), a plain non-`Annotated` annotation, or
`Annotated[typ, *metadata]` carrying a metadata tuple.  A Python exception
raised during registration is one of the classes below, each carrying its
message. -/

/-- The type part of an `Annotated` annotation: either a plain type (whose
`__name__` is used) or a `GenericAlias` (whose `str()` form is used). -/
inductive PyType where
  | plain (name : String)
  | generic (display : String)
  deriving Repr, DecidableEq

/-- `typ: str = str(typ) if isinstance(typ, GenericAlias) else typ.__name__`. -/
def typeLabel : PyType → String
  | .plain n => n
  | .generic d => d

/-- A value occurring in an `Annotated` metadata tuple, as far as the
`isinstance` checks in `register_tool` can distinguish them. -/
inductive PyMeta where
  | str (s : String)
  | bool (b : Bool)
  | int (n : Int)
  | other (repr : String)
  deriving Repr, DecidableEq

/-- A parameter annotation as seen through `inspect`: absent, a plain
annotation, or `Annotated` with its type part and metadata tuple. -/
inductive PyAnn where
  | empty
  | plain (typeName : String)
  | annotated (typ : PyType) (metadata : List PyMeta)
  deriving Repr, DecidableEq

/-- One declared parameter of a Python function: its name and annotation. -/
structure PyParam where
  name : String
  ann : PyAnn
  deriving Repr, DecidableEq

/-- The behaviour of calling a registered hook with the keyword arguments
from a parsed JSON object: either the `str()`-coerced return value, or the
`traceback.format_exc()` text of the exception it raised. -/
def HookFn : Type := List (String × JValue) → Except String String

/-- A Python function as `register_tool` sees it: `__name__`, the
`inspect.getdoc` result, the declared parameters in order, and its calling
behaviour. -/
structure PyFunc where
  name : String
  doc : Option String
  params : List PyParam
  hook : HookFn

/-- A Python exception escaping `register_tool`, by class and message. -/
inductive RegError where
  | typeError (msg : String)
  | attributeError (msg : String)
  | valueError (msg : String)
  deriving Repr, DecidableEq

/-- Whether a registration error is of the `TypeError` class — the class
`register_tool` raises for all of its explicit schema-validation checks. -/
def RegError.isTypeError : RegError → Bool
  | .typeError _ => true
  | _ => false

/-- A parameter descriptor as built by `register_tool` (one entry of the
`params` list of a tool description). -/
structure ToolParamDesc where
  name : String
  description : String
  type : String
  required : Bool
  deriving Repr, DecidableEq

/-- A tool description as appended to `_TOOL_DESCRIPTIONS`. -/
structure ToolDef where
  name : String
  description : String
  params : List ToolParamDesc
  deriving Repr, DecidableEq

/-- The module-level mutable state: `_TOOL_HOOKS` (a dict, i.e. an
insertion-ordered association list with unique keys) and
`_TOOL_DESCRIPTIONS` (a list). -/
structure RegistryState where
  hooks : List (String × HookFn)
  descriptions : List ToolDef

/-- The initial module state: both tables empty. -/
def emptyState : RegistryState := ⟨[], []⟩

/-- Python dict lookup on an association list: first matching key. -/
def alistLookup {α : Type} (l : List (String × α)) (k : String) : Option α :=
  match l with
  | [] => none
  | (k2, v) :: rest => if k2 = k then some v else alistLookup rest k

/-- Python dict assignment `d[k] = v`: overwrite in place if the key is
present, otherwise append. -/
def alistInsert {α : Type} (l : List (String × α)) (k : String) (v : α) :
    List (String × α) :=
  match l with
  | [] => [(k, v)]
  | (k2, v2) :: rest =>
    if k2 = k then (k2, v) :: rest else (k2, v2) :: alistInsert rest k v

/-- The parameter-validation loop of `register_tool`, in declaration order:
a missing annotation and a non-`Annotated` annotation raise `TypeError`;
unpacking `(description, required) = annotation.__metadata__` raises
`ValueError` unless the metadata tuple has exactly two elements; a
non-string description and a non-bool required flag raise `TypeError`. -/
def extractParams : List PyParam → Except RegError (List ToolParamDesc)
  | [] => .ok []
  | p :: rest =>
    match p.ann with
    | .empty =>
      .error (.typeError ("Parameter `" ++ p.name ++ "` missing type annotation"))
    | .plain _ =>
      .error (.typeError ("Annotation type for `" ++ p.name ++ "` must be typing.Annotated"))
    | .annotated typ metadata =>
      match metadata with
      | [d, r] =>
        match d with
        | .str ds =>
          match r with
          | .bool rb => do
            let tail ← extractParams rest
            .ok ({ name := p.name, description := ds,
                   type := typeLabel typ, required := rb } :: tail)
          | _ => .error (.typeError ("Required for `" ++ p.name ++ "` must be a bool"))
        | _ => .error (.typeError ("Description for `" ++ p.name ++ "` must be a string"))
      | _ => .error (.valueError "values to unpack mismatch in metadata")

/-- `register_tool` as a state transformer: on success the new module state,
on failure the escaping exception (in which case the Python globals are
untouched, the mutating statements being unreached).  Mirrors the source
line by line: `tool_name = func.__name__`;
`tool_description = inspect.getdoc(func).strip()` — an `AttributeError`
when `getdoc` returns `None`; the parameter loop; then
`_TOOL_HOOKS[tool_name] = func` and `_TOOL_DESCRIPTIONS.append(tool_def)`. -/
def register_tool (func : PyFunc) (st : RegistryState) :
    Except RegError RegistryState := do
  let tool_name := func.name
  let tool_description ←
    match func.doc with
    | none => Except.error (RegError.attributeError
        "NoneType object has no attribute strip")
    | some d => Except.ok (String.mk (stripWs d.data))
  let tool_params ← extractParams func.params
  let tool_def : ToolDef :=
    { name := tool_name, description := tool_description, params := tool_params }
  Except.ok { hooks := alistInsert st.hooks tool_name func.hook,
              descriptions := st.descriptions ++ [tool_def] }

/-- The module state reached after a `register_tool` call, under Python
semantics: on an exception the globals are as before (the mutating
statements come after every raising statement). -/
def stateAfter (func : PyFunc) (st : RegistryState) : RegistryState :=
  match register_tool func st with
  | .ok st2 => st2
  | .error _ => st

/-- Register a list of functions in order, stopping at the first failure
(an exception at import time aborts the module). -/
def registerAll (fs : List PyFunc) (st : RegistryState) :
    Except RegError RegistryState :=
  match fs with
  | [] => .ok st
  | f :: rest => do registerAll rest (← register_tool f st)

/-! ## `tool_registry.py`: dispatch -/

/-- The three predefined tool handlers imported by the module (`browser`,
`python`, `cogview` are separate modules, not part of the registration
core); each takes the raw payload and the session id. -/
structure PredefTools where
  simple_browser : String → String → List ToolObservation
  python : String → String → List ToolObservation
  cogview : String → String → List ToolObservation

/-- The `ALL_TOOLS` dict: the fixed predefined tool names and handlers. -/
def ALL_TOOLS (t : PredefTools) : List (String × (String → String → List ToolObservation)) :=
  [("simple_browser", t.simple_browser),
   ("python", t.python),
   ("cogview", t.cogview)]

/-- The payload preprocessing of custom-tool dispatch:
`code.strip().rstrip(markerString).strip()` — note that Python
`str.rstrip` treats its argument as a character set. -/
def processedCode (code : String) : List Char :=
  stripWs (rstripSet markerChars (stripWs code.data))

/-- `tool_hook(**tool_params)`: keyword-expanding a non-mapping raises a
`TypeError` inside the `try` block; otherwise the hook runs.  The error
string stands for the `traceback.format_exc()` text. -/
def callHook (hook : HookFn) (v : JValue) : Except String String :=
  match v with
  | .obj kvs => hook kvs
  | _ => .error "TypeError: argument after ** must be a mapping"

/-- `dispatch_tool` from `tool_registry.py`: predefined tools are called
directly on the raw payload; otherwise the payload is stripped of the
end-of-call marker, parsed as JSON, the hook looked up and invoked, and
every failure is normalised into a single system_error observation. -/
def dispatch_tool (t : PredefTools) (hooks : List (String × HookFn))
    (tool_name code session_id : String) : List ToolObservation :=
  match alistLookup (ALL_TOOLS t) tool_name with
  | some handler => handler code session_id
  | none =>
    match jsonLoads (processedCode code) with
    | .error e =>
      [{ content_type := "system_error", text := "Error decoding JSON: " ++ e }]
    | .ok tool_params =>
      match alistLookup hooks tool_name with
      | none =>
        [{ content_type := "system_error",
           text := "Tool `" ++ tool_name ++ "` not found. Please use a provided tool." }]
      | some tool_hook =>
        match callHook tool_hook tool_params with
        | .ok ret => [{ content_type := tool_name, text := ret }]
        | .error tb => [{ content_type := "system_error", text := tb }]

/-- `get_tools` on the pure state view: the value of `_TOOL_DESCRIPTIONS`
(the deep-copy aspect is treated separately on the heap model below). -/
def get_tools (st : RegistryState) : List ToolDef := st.descriptions

/-! ## Concrete material for witnesses -/

/-- Predefined handlers used in concrete instances: each returns a single
observation echoing the raw payload, so that bypassing of parsing is
visible. -/
def echoPredef : PredefTools :=
  { simple_browser := fun code sid =>
      [{ content_type := "browser_result", text := code ++ "/" ++ sid }],
    python := fun code sid =>
      [{ content_type := "python_result", text := code ++ "/" ++ sid }],
    cogview := fun code sid =>
      [{ content_type := "cogview_result", text := code ++ "/" ++ sid }] }

/-- A hook that always raises; the error value is the text
`traceback.format_exc()` would render. -/
def boomHook : HookFn := fun _ =>
  Except.error "Traceback (most recent call last): ValueError: boom"

/-- A hook that returns the number of keyword arguments it received. -/
def arityHook : HookFn := fun kvs => Except.ok (toString kvs.length)

/-! ## C5: predefined tools receive the raw payload -/

/-- C5: for every tool name in the fixed predefined set (`simple_browser`,
`python`, `cogview`) and every payload and session id, `dispatch_tool`
invokes that predefined handler directly on the raw `(payload, session_id)`
pair — no marker stripping, no JSON parsing, no registry lookup — and
returns its observation sequence unmodified. -/
theorem dispatch_predefined_raw (t : PredefTools) (hooks : List (String × HookFn))
    (code session_id : String) :
    dispatch_tool t hooks "simple_browser" code session_id = t.simple_browser code session_id
    ∧ dispatch_tool t hooks "python" code session_id = t.python code session_id
    ∧ dispatch_tool t hooks "cogview" code session_id = t.cogview code session_id :=
  ⟨rfl, rfl, rfl⟩

/-! ## C6: malformed JSON payload for a custom tool -/

/-- C6: for every non-predefined tool name and every payload whose processed
text fails to parse as JSON, `dispatch_tool` returns exactly one
`system_error` observation embedding the JSON decoding error detail, and
the call itself does not raise (the embedding of `dispatch_tool` is a total
function). -/
theorem dispatch_json_error (t : PredefTools) (hooks : List (String × HookFn))
    (tool_name code session_id e : String)
    (hpre : alistLookup (ALL_TOOLS t) tool_name = none)
    (hjson : jsonLoads (processedCode code) = .error e) :
    dispatch_tool t hooks tool_name code session_id =
      [{ content_type := "system_error", text := "Error decoding JSON: " ++ e }] := by
  unfold dispatch_tool
  simp only [hpre, hjson]

/-- Witness for C6: the spec test case, a malformed payload against a
registered tool. -/
theorem dispatch_json_error_witness :
    dispatch_tool echoPredef [("echo_tool", arityHook)] "echo_tool"
        "\x7binvalid json" "s1" =
      [{ content_type := "system_error",
         text := "Error decoding JSON: Expecting property name enclosed in double quotes" }] :=
  dispatch_json_error echoPredef [("echo_tool", arityHook)] "echo_tool"
    "\x7binvalid json" "s1" "Expecting property name enclosed in double quotes" rfl rfl

/-! ## C7: unknown tool name -/

/-- C7: for every tool name that is neither predefined nor registered and
every payload that parses as JSON, `dispatch_tool` returns exactly one
`system_error` observation stating the tool is not found and that only
provided tools may be used. -/
theorem dispatch_unknown_tool (t : PredefTools) (hooks : List (String × HookFn))
    (tool_name code session_id : String) (v : JValue)
    (hpre : alistLookup (ALL_TOOLS t) tool_name = none)
    (hjson : jsonLoads (processedCode code) = .ok v)
    (hhook : alistLookup hooks tool_name = none) :
    dispatch_tool t hooks tool_name code session_id =
      [{ content_type := "system_error",
         text := "Tool `" ++ tool_name ++ "` not found. Please use a provided tool." }] := by
  unfold dispatch_tool
  simp only [hpre, hjson, hhook]

/-- Witness for C7: the spec test case — an unknown tool name with an
empty JSON-object payload. -/
theorem dispatch_unknown_tool_witness :
    dispatch_tool echoPredef [("echo_tool", arityHook)] "not_a_real_tool"
        "\x7b\x7d" "s1" =
      [{ content_type := "system_error",
         text := "Tool `not_a_real_tool` not found. Please use a provided tool." }] :=
  dispatch_unknown_tool echoPredef [("echo_tool", arityHook)] "not_a_real_tool"
    "\x7b\x7d" "s1" (.obj []) rfl rfl rfl

/-! ## C1: a raising capability is caught -/

/-- C1: for every registered custom tool, payload and session id, if
invoking the hook with the parsed keyword arguments raises — including the
`TypeError` from keyword-expanding a non-mapping, and any error raised
inside the capability — then `dispatch_tool` returns exactly one
observation with content type `system_error` whose text is the full error
traceback.  The embedding of `dispatch_tool` is a total function into
observation lists, so the exception never propagates to the caller. -/
theorem dispatch_capability_error_caught (t : PredefTools)
    (hooks : List (String × HookFn)) (tool_name code session_id : String)
    (hk : HookFn) (v : JValue) (tb : String)
    (hpre : alistLookup (ALL_TOOLS t) tool_name = none)
    (hjson : jsonLoads (processedCode code) = .ok v)
    (hhook : alistLookup hooks tool_name = some hk)
    (hcall : callHook hk v = .error tb) :
    dispatch_tool t hooks tool_name code session_id =
      [{ content_type := "system_error", text := tb }] := by
  unfold dispatch_tool
  simp only [hpre, hjson, hhook, hcall]

/-- Witness for C1: a registered tool that raises on semantically invalid
arguments yields exactly one `system_error` observation with the trace. -/
theorem dispatch_capability_error_caught_witness :
    dispatch_tool echoPredef [("boom_tool", boomHook)] "boom_tool"
        "\x7b\"a\": 1\x7d" "s1" =
      [{ content_type := "system_error",
         text := "Traceback (most recent call last): ValueError: boom" }] :=
  dispatch_capability_error_caught echoPredef [("boom_tool", boomHook)] "boom_tool"
    "\x7b\"a\": 1\x7d" "s1" boomHook (.obj [("a", .num "1")])
    "Traceback (most recent call last): ValueError: boom" rfl rfl rfl rfl

/-! ## Registration lemmas -/

theorem exceptBind_ok {e a b : Type} (x : a) (f : a → Except e b) :
    (Except.ok x >>= f) = f x := rfl

theorem exceptBind_error {e a b : Type} (err : e) (f : a → Except e b) :
    ((Except.error err : Except e a) >>= f) = Except.error err := rfl

theorem alistLookup_insert_self {α : Type} (l : List (String × α)) (k : String) (v : α) :
    alistLookup (alistInsert l k v) k = some v := by
  induction l with
  | nil => simp [alistInsert, alistLookup]
  | cons hd tl ih =>
    obtain ⟨k2, v2⟩ := hd
    by_cases h : k2 = k
    · simp [alistInsert, alistLookup, h]
    · simp [alistInsert, alistLookup, h, ih]

theorem alistInsert_keys_of_mem {α : Type} (l : List (String × α)) (k : String) (v : α)
    (h : k ∈ l.map Prod.fst) :
    (alistInsert l k v).map Prod.fst = l.map Prod.fst := by
  induction l with
  | nil => simp at h
  | cons hd tl ih =>
    obtain ⟨k2, v2⟩ := hd
    by_cases hk : k2 = k
    · simp [alistInsert, hk]
    · simp only [List.map_cons, List.mem_cons] at h
      rcases h with h | h

      · exact absurd h.symm hk
      · simp [alistInsert, hk, ih h]

theorem extractParams_names (ps : List PyParam) (ds : List ToolParamDesc)
    (h : extractParams ps = .ok ds) :
    ds.map ToolParamDesc.name = ps.map PyParam.name := by
  induction ps generalizing ds with
  | nil =>
    simp only [extractParams] at h
    cases h
    simp
  | cons p rest ih =>
    cases hann : p.ann with
    | empty => simp [extractParams, hann] at h
    | plain tn => simp [extractParams, hann] at h
    | annotated typ md =>
      match md with
      | [] => simp [extractParams, hann] at h
      | [d] => simp [extractParams, hann] at h
      | d :: r :: x :: xs => simp [extractParams, hann] at h
      | [d, r] =>
        cases d with
        | str ds2 =>
          cases r with
          | bool rb =>
            simp only [extractParams, hann] at h
            cases htl : extractParams rest with
            | error e => rw [htl] at h; simp [exceptBind_error] at h
            | ok tail =>
              rw [htl] at h
              simp only [exceptBind_ok] at h
              cases h
              simp [ih tail htl]
          | str s => simp [extractParams, hann] at h
          | int n => simp [extractParams, hann] at h
          | other o => simp [extractParams, hann] at h
        | bool b => simp [extractParams, hann] at h
        | int n => simp [extractParams, hann] at h
        | other o => simp [extractParams, hann] at h

/-- Shape of a successful registration step: the hook table gets the
function inserted under its name, and exactly one tool description is
appended, carrying the name, the trimmed docstring and the parameter
descriptors in declaration order. -/
theorem register_tool_ok (f : PyFunc) (st st2 : RegistryState)
    (h : register_tool f st = .ok st2) :
    ∃ td : ToolDef,
      st2.descriptions = st.descriptions ++ [td]
      ∧ st2.hooks = alistInsert st.hooks f.name f.hook
      ∧ td.name = f.name
      ∧ td.params.map ToolParamDesc.name = f.params.map PyParam.name
      ∧ (∀ d, f.doc = some d → td.description = String.mk (stripWs d.data)) := by
  cases hdoc : f.doc with
  | none => simp [register_tool, hdoc, exceptBind_error] at h
  | some d =>
    cases hps : extractParams f.params with
    | error e => simp [register_tool, hdoc, hps, exceptBind_ok, exceptBind_error] at h
    | ok ps =>
      simp only [register_tool, hdoc, hps, exceptBind_ok] at h
      cases h
      exact ⟨{ name := f.name, description := String.mk (stripWs d.data), params := ps },
        rfl, rfl, rfl, extractParams_names f.params ps hps,
        fun d2 hd2 => by obtain rfl : d = d2 := Option.some.inj hd2; rfl⟩

/-- Shape of a successful sequence of registrations: the description list
gains one entry per function, in order, each carrying the name and the
parameter names of its function. -/
theorem registerAll_ok (fs : List PyFunc) (st st2 : RegistryState)
    (h : registerAll fs st = .ok st2) :
    st2.descriptions.map ToolDef.name
        = st.descriptions.map ToolDef.name ++ fs.map PyFunc.name
    ∧ ∀ d ∈ st2.descriptions, d ∈ st.descriptions ∨
        ∃ f ∈ fs, d.name = f.name
          ∧ d.params.map ToolParamDesc.name = f.params.map PyParam.name := by
  induction fs generalizing st with
  | nil =>
    simp only [registerAll] at h
    cases h
    exact ⟨by simp, fun d hd => Or.inl hd⟩
  | cons f rest ih =>
    simp only [registerAll] at h
    cases hstep : register_tool f st with
    | error e => rw [hstep] at h; simp [exceptBind_error] at h
    | ok st1 =>
      rw [hstep] at h
      simp only [exceptBind_ok] at h
      obtain ⟨hmap, hmem⟩ := ih st1 h
      obtain ⟨td, hdesc, _hhooks, hname, hparams, _⟩ := register_tool_ok f st st1 hstep
      constructor
      · rw [hmap, hdesc]
        simp [hname]
      · intro d hd
        rcases hmem d hd with hold | ⟨g, hg, hgn, hgp⟩
        · rw [hdesc] at hold
          rcases List.mem_append.mp hold with h1 | h1
          · exact Or.inl h1
          · simp only [List.mem_singleton] at h1
            subst h1
            exact Or.inr ⟨f, List.mem_cons_self f rest, hname, hparams⟩
        · exact Or.inr ⟨g, List.mem_cons_of_mem f hg, hgn, hgp⟩

theorem filter_name_length (l : List ToolDef) (x : String) :
    (l.filter (fun d => d.name = x)).length
      = ((l.map ToolDef.name).filter (fun n => n = x)).length := by
  induction l with
  | nil => rfl
  | cons d t ih =>
    by_cases h : d.name = x
    · simp [List.filter_cons, h, ih]
    · simp [List.filter_cons, h, ih]

theorem nodup_filter_length_one (l : List String) (hl : l.Nodup) (x : String)
    (hx : x ∈ l) : (l.filter (fun n => n = x)).length = 1 := by
  induction l with
  | nil => simp at hx
  | cons a t ih =>
    obtain ⟨ha, ht⟩ := List.nodup_cons.mp hl
    rcases List.mem_cons.mp hx with hxa | hxt
    · subst hxa
      have : t.filter (fun n => n = x) = [] := by
        rw [List.filter_eq_nil_iff]
        intro b hb
        simp only [decide_eq_true_eq]
        intro hbx
        exact ha (hbx ▸ hb)
      simp [List.filter_cons, this]
    · have hax : ¬ a = x := fun hax => ha (hax ▸ hxt)
      simp [List.filter_cons, hax, ih ht hxt]

/-! ## Concrete functions for registration instances -/

/-- A well-formed capability: documented, one structurally annotated
parameter. -/
def dupFunc : PyFunc :=
  { name := "dup_tool",
    doc := some "  A duplicated tool.  ",
    params := [{ name := "a", ann := .annotated (.plain "int") [.str "first arg", .bool true] }],
    hook := fun _ => Except.ok "1" }

/-- A second well-formed capability with a different name and two
parameters, to exercise parameter order. -/
def otherFunc : PyFunc :=
  { name := "other_tool",
    doc := some "Another tool.",
    params := [{ name := "x", ann := .annotated (.plain "str") [.str "x arg", .bool true] },
               { name := "y", ann := .annotated (.generic "tuple[int, int]") [.str "y arg", .bool false] }],
    hook := fun _ => Except.ok "2" }

/-- A capability with no documentation string (`inspect.getdoc` returns
`None`). -/
def noDocFunc : PyFunc :=
  { name := "no_doc_tool", doc := none, params := [], hook := fun _ => Except.ok "" }

/-- A documented capability whose parameter has a plain, non-`Annotated`
annotation. -/
def badParamFunc : PyFunc :=
  { name := "bad_param_tool",
    doc := some "Documented.",
    params := [{ name := "a", ann := .plain "int" }],
    hook := fun _ => Except.ok "" }

/-! ## C2: duplicate names — corrected -/

/-- C2 counterexample: registering the same well-formed capability twice
succeeds, overwrites the hook entry, but leaves TWO descriptors named
`dup_tool` in the listing — the claim that the descriptor listing contains
exactly one descriptor per registered capability name is false for this
registration sequence. -/
theorem register_twice_two_descriptors :
    (registerAll [dupFunc, dupFunc] emptyState).isOk = true
    ∧ ((stateAfter dupFunc (stateAfter dupFunc emptyState)).descriptions.map ToolDef.name)
        = ["dup_tool", "dup_tool"]
    ∧ ((stateAfter dupFunc (stateAfter dupFunc emptyState)).descriptions.filter
        (fun d => d.name = "dup_tool")).length = 2 :=
  ⟨rfl, rfl, rfl⟩

/-- C2 amended: re-registering a name overwrites the prior HOOK entry (last
writer wins, keys staying unique), but each registration unconditionally
appends a descriptor, so the listing has exactly one descriptor per
capability name only when the registered names are pairwise distinct; in
that case each descriptor preserves its capability's declared parameter
order. -/
theorem register_overwrite_hooks_append_descriptions :
    (∀ (f g : PyFunc) (st st1 st2 : RegistryState), f.name = g.name →
      register_tool f st = .ok st1 → register_tool g st1 = .ok st2 →
      alistLookup st2.hooks f.name = some g.hook
        ∧ st2.hooks.map Prod.fst = st1.hooks.map Prod.fst
        ∧ st2.descriptions.length = st1.descriptions.length + 1)
    ∧ (∀ (fs : List PyFunc) (st2 : RegistryState),
        registerAll fs emptyState = .ok st2 → (fs.map PyFunc.name).Nodup →
        (∀ f ∈ fs, (st2.descriptions.filter (fun d => d.name = f.name)).length = 1)
        ∧ ∀ d ∈ st2.descriptions, ∃ f ∈ fs, d.name = f.name
            ∧ d.params.map ToolParamDesc.name = f.params.map PyParam.name) := by
  constructor
  · intro f g st st1 st2 hname h1 h2
    obtain ⟨td1, _hd1, hh1, _, _, _⟩ := register_tool_ok f st st1 h1
    obtain ⟨td2, hd2, hh2, _, _, _⟩ := register_tool_ok g st1 st2 h2
    refine ⟨?_, ?_, by simp [hd2]⟩
    · rw [hh2, hname]
      exact alistLookup_insert_self st1.hooks g.name g.hook
    · rw [hh2]
      apply alistInsert_keys_of_mem
      rw [hh1, ← hname]
      induction st.hooks with
      | nil => simp [alistInsert]
      | cons hd tl ih =>
        obtain ⟨k2, v2⟩ := hd
        by_cases hk : k2 = f.name
        · simp [alistInsert, hk]
        · simp only [alistInsert, hk, if_false, List.map_cons, List.mem_cons]
          exact Or.inr ih
  · intro fs st2 h hnodup
    obtain ⟨hmap, hmem⟩ := registerAll_ok fs emptyState st2 h
    simp only [emptyState, List.map_nil, List.nil_append] at hmap
    refine ⟨?_, ?_⟩
    · intro f hf
      rw [filter_name_length, hmap]
      exact nodup_filter_length_one _ hnodup f.name (List.mem_map_of_mem PyFunc.name hf)
    · intro d hd
      rcases hmem d hd with hold | hgood
      · simp [emptyState] at hold
      · exact hgood

/-- Witness for the amended C2: a concrete double registration under one
name shows last-writer-wins on the hook table, and a concrete distinct-name
sequence yields one descriptor per name with parameters in declared
order. -/
theorem register_overwrite_witness :
    (∃ st1 st2 : RegistryState,
      register_tool dupFunc emptyState = .ok st1
      ∧ register_tool { dupFunc with hook := fun _ => Except.ok "9" } st1 = .ok st2
      ∧ alistLookup st2.hooks "dup_tool" = some (fun _ => Except.ok "9")
      ∧ st2.hooks.map Prod.fst = ["dup_tool"])
    ∧ (∃ st2 : RegistryState, registerAll [dupFunc, otherFunc] emptyState = .ok st2
      ∧ (st2.descriptions.filter (fun d => d.name = "other_tool")).length = 1) := by
  constructor
  · refine ⟨stateAfter dupFunc emptyState,
      stateAfter { dupFunc with hook := fun _ => Except.ok "9" } (stateAfter dupFunc emptyState),
      rfl, rfl, ?_, ?_⟩
    · have h := (register_overwrite_hooks_append_descriptions.1 dupFunc
        { dupFunc with hook := fun _ => Except.ok "9" }
        emptyState (stateAfter dupFunc emptyState)
        (stateAfter { dupFunc with hook := fun _ => Except.ok "9" } (stateAfter dupFunc emptyState))
        rfl rfl rfl).1
      exact h
    · rfl
  · refine ⟨stateAfter otherFunc (stateAfter dupFunc emptyState), rfl, ?_⟩
    exact ((register_overwrite_hooks_append_descriptions.2 [dupFunc, otherFunc]
      (stateAfter otherFunc (stateAfter dupFunc emptyState)) rfl (by decide)).1
      otherFunc (by simp [dupFunc, otherFunc])).trans rfl

/-! ## C3: missing documentation — corrected -/

/-- C3 counterexample: for a capability with no documentation string,
registration does fail, but the escaping exception is an `AttributeError`
(from calling `strip` on the `None` returned by `inspect.getdoc`), not the
`TypeError` class that every explicit schema-validation check in
`register_tool` raises — so it is not the registration-time
schema-validation error class the claim names. -/
theorem register_nodoc_not_schema_error :
    register_tool noDocFunc emptyState =
      .error (.attributeError "NoneType object has no attribute strip")
    ∧ (RegError.attributeError "NoneType object has no attribute strip").isTypeError = false
    ∧ ∀ msg, register_tool badParamFunc emptyState = .error (.typeError msg) →
        (RegError.typeError msg).isTypeError = true :=
  ⟨rfl, rfl, fun _ _ => rfl⟩

/-- C3 amended: a capability with no documentation string fails
registration, but with an `AttributeError` rather than the `TypeError`
class used for schema validation; the description of a documented
capability is its documentation string trimmed of leading and trailing
whitespace. -/
theorem register_doc_behaviour :
    (∀ (f : PyFunc) (st : RegistryState), f.doc = none →
      register_tool f st =
        .error (.attributeError "NoneType object has no attribute strip"))
    ∧ (∀ (f : PyFunc) (st st2 : RegistryState) (d : String), f.doc = some d →
        register_tool f st = .ok st2 →
        ∃ td : ToolDef, st2.descriptions = st.descriptions ++ [td]
          ∧ td.description = String.mk (stripWs d.data)) := by
  constructor
  · intro f st hdoc
    simp [register_tool, hdoc, exceptBind_error]
  · intro f st st2 d hdoc hok
    obtain ⟨td, happ, _, _, _, hdesc⟩ := register_tool_ok f st st2 hok
    exact ⟨td, happ, hdesc d hdoc⟩

/-- Witness for the amended C3: the undocumented capability fails with
`AttributeError`, and a documented capability with surrounding whitespace
in its docstring registers with the trimmed description. -/
theorem register_doc_behaviour_witness :
    register_tool noDocFunc emptyState =
      .error (.attributeError "NoneType object has no attribute strip")
    ∧ ∃ td : ToolDef,
        (stateAfter dupFunc emptyState).descriptions = emptyState.descriptions ++ [td]
        ∧ td.description = String.mk (stripWs "  A duplicated tool.  ".data) :=
  ⟨register_doc_behaviour.1 noDocFunc emptyState rfl,
   register_doc_behaviour.2 dupFunc emptyState (stateAfter dupFunc emptyState)
     "  A duplicated tool.  " rfl rfl⟩

/-! ## C4: malformed parameter metadata — confirmed -/

/-- An annotation that is malformed in one of the ways the claim
enumerates: missing entirely, not of the structured `Annotated` form, or
structured with a non-string description or a non-boolean required flag. -/
def claimedBadAnn (a : PyAnn) : Prop :=
  a = .empty
  ∨ (∃ tn, a = .plain tn)
  ∨ (∃ typ d r, a = .annotated typ [d, r]
      ∧ ((∀ s, d ≠ PyMeta.str s) ∨ (∀ b, r ≠ PyMeta.bool b)))

/-- An annotation whose metadata tuple, when present, has exactly the two
elements the decorator unpacks (the claim presumes the `(description,
required)` shape and speaks only of the wrongly-typed or absent cases). -/
def metadataPairShaped (a : PyAnn) : Prop :=
  ∀ typ md, a = .annotated typ md → ∃ d r, md = [d, r]

theorem extractParams_bad (ps : List PyParam)
    (hshape : ∀ p ∈ ps, metadataPairShaped p.ann)
    (hbad : ∃ p ∈ ps, claimedBadAnn p.ann) :
    ∃ msg, extractParams ps = .error (.typeError msg) := by
  induction ps with
  | nil => simp at hbad
  | cons p rest ih =>
    cases hann : p.ann with
    | empty =>
      exact ⟨"Parameter `" ++ p.name ++ "` missing type annotation",
        by simp [extractParams, hann]⟩
    | plain tn =>
      exact ⟨"Annotation type for `" ++ p.name ++ "` must be typing.Annotated",
        by simp [extractParams, hann]⟩
    | annotated typ md =>
      obtain ⟨d, r, rfl⟩ := hshape p (List.mem_cons_self p rest) typ md hann
      cases d with
      | str ds =>
        cases r with
        | bool rb =>
          have hrest : ∃ q ∈ rest, claimedBadAnn q.ann := by
            obtain ⟨q, hq, hqbad⟩ := hbad
            rcases List.mem_cons.mp hq with rfl | hq2
            · exfalso
              rcases hqbad with h1 | ⟨tn, h1⟩ | ⟨typ2, d2, r2, h1, h2⟩ <;> rw [hann] at h1
              · exact PyAnn.noConfusion h1
              · exact PyAnn.noConfusion h1
              · cases h1
                rcases h2 with h2 | h2
                · exact h2 ds rfl
                · exact h2 rb rfl
            · exact ⟨q, hq2, hqbad⟩
          obtain ⟨msg, hmsg⟩ := ih (fun q hq => hshape q (List.mem_cons_of_mem p hq)) hrest
          refine ⟨msg, ?_⟩
          simp [extractParams, hann, hmsg, exceptBind_error]
        | str s =>
          exact ⟨"Required for `" ++ p.name ++ "` must be a bool",
            by simp [extractParams, hann]⟩
        | int n =>
          exact ⟨"Required for `" ++ p.name ++ "` must be a bool",
            by simp [extractParams, hann]⟩
        | other o =>
          exact ⟨"Required for `" ++ p.name ++ "` must be a bool",
            by simp [extractParams, hann]⟩
      | bool b =>
        exact ⟨"Description for `" ++ p.name ++ "` must be a string",
          by simp [extractParams, hann]⟩
      | int n =>
        exact ⟨"Description for `" ++ p.name ++ "` must be a string",
          by simp [extractParams, hann]⟩
      | other o =>
        exact ⟨"Description for `" ++ p.name ++ "` must be a string",
          by simp [extractParams, hann]⟩

/-- C4: a documented capability with some parameter lacking the structured
`(type, description, required)` annotation, or whose description part is
not a string, or whose required part is not a boolean, fails registration
with the schema-validation `TypeError`, and the registry and descriptor
listing are left unchanged — no hook and no partial descriptor is added.
(The hypotheses scope the claim the way its sources do: the capability is
documented — the undocumented case is C3 — and metadata tuples have the
two-element shape the decorator unpacks.) -/
theorem register_bad_param_rejected (f : PyFunc) (st : RegistryState) (d0 : String)
    (hdoc : f.doc = some d0)
    (hshape : ∀ p ∈ f.params, metadataPairShaped p.ann)
    (hbad : ∃ p ∈ f.params, claimedBadAnn p.ann) :
    (∃ msg, register_tool f st = .error (.typeError msg))
    ∧ stateAfter f st = st := by
  obtain ⟨msg, hmsg⟩ := extractParams_bad f.params hshape hbad
  have herr : register_tool f st = .error (.typeError msg) := by
    simp [register_tool, hdoc, hmsg, exceptBind_ok, exceptBind_error]
  exact ⟨⟨msg, herr⟩, by simp [stateAfter, herr]⟩

/-- Witness for C4: a documented capability whose parameter carries a
plain, non-`Annotated` annotation is rejected with a `TypeError` and the
empty registry stays empty. -/
theorem register_bad_param_rejected_witness :
    ((∃ msg, register_tool badParamFunc emptyState = .error (.typeError msg))
      ∧ stateAfter badParamFunc emptyState = emptyState) :=
  register_bad_param_rejected badParamFunc emptyState "Documented." rfl
    (by intro p hp; simp [badParamFunc] at hp; subst hp; intro typ md h; cases h)
    ⟨{ name := "a", ann := .plain "int" }, by simp [badParamFunc], Or.inr (Or.inl ⟨"int", rfl⟩)⟩

/-! ## String lemmas for the marker-stripping claims -/

theorem marker_chars_not_space : ∀ c ∈ markerChars, isPySpace c = false := by decide

theorem space_not_marker (c : Char) (hP : isPySpace c = true) : ¬ c ∈ markerChars :=
  fun hmem => by rw [marker_chars_not_space c hmem] at hP; exact Bool.noConfusion hP

theorem rbrace_not_marker : ¬ rbrace ∈ markerChars := by decide

theorem rbrace_not_space : isPySpace rbrace = false := by decide

theorem dropWhile_append_of_ne_nil {p : Char → Bool} {a b : List Char}
    (h : a.dropWhile p ≠ []) : (a ++ b).dropWhile p = a.dropWhile p ++ b := by
  rw [List.dropWhile_append]
  have h2 : (a.dropWhile p).isEmpty = false := by
    cases hh : a.dropWhile p with
    | nil => exact absurd hh h
    | cons x xs => rfl
  simp [h2]

theorem dropWhile_append_of_all {p : Char → Bool} {a b : List Char}
    (h : ∀ x ∈ a, p x = true) : (a ++ b).dropWhile p = b.dropWhile p := by
  rw [List.dropWhile_append, List.dropWhile_eq_nil_iff.mpr h]
  rfl

/-- Every list splits as its right-stripped part followed by its trailing
run of whitespace. -/
theorem rstripWs_decomp (l : List Char) :
    ∃ w, l = rstripWs l ++ w ∧ ∀ x ∈ w, isPySpace x = true := by
  refine ⟨(l.reverse.takeWhile isPySpace).reverse, ?_, ?_⟩
  · conv_lhs => rw [← l.reverse_reverse,
      ← List.takeWhile_append_dropWhile isPySpace l.reverse]
    rw [List.reverse_append]
    rfl
  · intro x hx
    exact List.mem_takeWhile_imp (List.mem_reverse.mp hx)

/-- The head of a `dropWhile` result does not satisfy the predicate. -/
theorem dropWhile_head_false {p : Char → Bool} {l : List Char} {x : Char} {xs : List Char}
    (h : l.dropWhile p = x :: xs) : p x = false := by
  have h3 := List.head?_dropWhile_not p l
  rw [h] at h3
  exact h3

/-- Central lemma for C8 and C10: appending any suffix drawn from the
marker character set to a payload whose stripped text ends in a closing
brace does not change the processed code that custom-tool dispatch goes on
to parse. -/
theorem processed_append_marker_suffix (pl suffix : List Char)
    (hsuf : ∀ c ∈ suffix, c ∈ markerChars)
    (hend : (stripWs pl).getLast? = some rbrace) :
    stripWs (rstripSet markerChars (stripWs (pl ++ suffix)))
      = stripWs (rstripSet markerChars (stripWs pl)) := by
  obtain ⟨r0, hr0⟩ := List.getLast?_eq_some_iff.mp hend
  have hrrev : (stripWs pl).reverse = rbrace :: r0.reverse := by
    rw [hr0, List.reverse_append]
    rfl
  have hrne : stripWs pl ≠ [] := by
    rw [hr0]
    simp
  obtain ⟨rh, rt, hr⟩ := List.exists_cons_of_ne_nil hrne
  have hqne : lstripWs pl ≠ [] := by
    intro h
    rw [stripWs, h] at hr0
    simp [rstripWs] at hr0
  obtain ⟨w, hw, hwspace⟩ := rstripWs_decomp (lstripWs pl)
  have hwq : lstripWs pl = stripWs pl ++ w := hw
  have hqhead : ∀ x xs, lstripWs pl = x :: xs → isPySpace x = false := by
    intro x xs hxx
    simp only [lstripWs] at hxx
    exact dropWhile_head_false hxx
  have hrh : isPySpace rh = false := by
    refine hqhead rh (rt ++ w) ?_
    rw [hwq, hr, List.cons_append]
  have hlstrip_r : lstripWs (stripWs pl) = stripWs pl := by
    rw [hr, lstripWs, List.dropWhile_cons_of_neg (by simp [hrh])]
  have hrstrip_r : rstripWs (stripWs pl) = stripWs pl := by
    rw [rstripWs, hrrev,
      List.dropWhile_cons_of_neg (by simp [rbrace_not_space]), ← hrrev,
      List.reverse_reverse]
  have hset_r : rstripSet markerChars (stripWs pl) = stripWs pl := by
    rw [rstripSet, hrrev,
      List.dropWhile_cons_of_neg (by simp [rbrace_not_marker]), ← hrrev,
      List.reverse_reverse]
  have hrhs : stripWs (rstripSet markerChars (stripWs pl)) = stripWs pl := by
    rw [hset_r, stripWs, hlstrip_r, hrstrip_r]
  cases suffix with
  | nil => rw [List.append_nil]
  | cons sc stail =>
  have hsufrev : ∀ x ∈ (sc :: stail).reverse, x ∈ markerChars := by
    intro x hx
    exact hsuf x (List.mem_reverse.mp hx)
  have hsufrev_ne : (sc :: stail).reverse ≠ [] := by
    simp [List.reverse_eq_nil_iff]
  have hqne2 : pl.dropWhile isPySpace ≠ [] := hqne
  have hstep1 : lstripWs (pl ++ sc :: stail) = lstripWs pl ++ sc :: stail := by
    rw [lstripWs, dropWhile_append_of_ne_nil hqne2]
    rfl
  have hstep2 : rstripWs (lstripWs pl ++ sc :: stail) = lstripWs pl ++ sc :: stail := by
    rw [rstripWs, List.reverse_append]
    cases hsr : (sc :: stail).reverse with
    | nil => exact absurd hsr hsufrev_ne
    | cons x xs =>
      have hx : x ∈ markerChars := hsufrev x (by rw [hsr]; exact List.mem_cons_self x xs)
      rw [List.cons_append,
        List.dropWhile_cons_of_neg (by simp [marker_chars_not_space x hx]),
        ← List.cons_append, ← hsr, ← List.reverse_append, List.reverse_reverse]
  have hstep3 : rstripSet markerChars (lstripWs pl ++ sc :: stail)
      = rstripSet markerChars (lstripWs pl) := by
    rw [rstripSet, rstripSet, List.reverse_append,
      dropWhile_append_of_all (by intro x hx; simp [hsufrev x hx])]
  have hcore : stripWs (pl ++ sc :: stail) = lstripWs pl ++ sc :: stail := by
    rw [stripWs, hstep1, hstep2]
  rw [hcore, hstep3, hrhs]
  cases w with
  | nil =>
    rw [List.append_nil] at hwq
    rw [hwq, hset_r, stripWs, hlstrip_r, hrstrip_r]
  | cons wc wt =>
    have hset_q : rstripSet markerChars (lstripWs pl) = lstripWs pl := by
      rw [rstripSet, hwq, List.reverse_append]
      cases hwr : (wc :: wt).reverse with
      | nil => simp at hwr
      | cons x xs =>
        have hxw : isPySpace x = true := by
          refine hwspace x ?_
          refine List.mem_reverse.mp ?_
          rw [hwr]
          exact List.mem_cons_self x xs
        rw [List.cons_append,
          List.dropWhile_cons_of_neg (by simp [space_not_marker x hxw]),
          ← List.cons_append, ← hwr, ← List.reverse_append, List.reverse_reverse,
          ← hwq]
    have hidem : lstripWs (lstripWs pl) = lstripWs pl := by
      conv_lhs => rw [hwq, hr, List.cons_append, lstripWs,
        List.dropWhile_cons_of_neg (by simp [hrh])]
      rw [hwq, hr, List.cons_append]
    rw [hset_q, stripWs, hidem]
    rfl

/-! ## Parser consumption lemmas

These support deriving, from a successful parse of an object, that the
parsed text ends in a closing brace — the bridge between "the payload is a
JSON object" and the marker-stripping argument. -/

theorem skipWs_suffix (l : List Char) : skipWs l <:+ l :=
  List.dropWhile_suffix isJsonWs

theorem skipWs_split {l : List Char} {x : Char} {rest : List Char}
    (h : skipWs l = x :: rest) : ∃ pre, l = pre ++ x :: rest := by
  obtain ⟨t, ht⟩ := skipWs_suffix l
  exact ⟨t, by rw [← ht, h]⟩

theorem skipWs_cons_suffix {x y : List Char} {c : Char} (h : skipWs x = c :: y) :
    y <:+ x := by
  have h2 := skipWs_suffix x
  rw [h] at h2
  exact List.IsSuffix.trans ⟨[c], rfl⟩ h2

theorem parseStr_suffix (f : Nat) : ∀ cs s r, parseStr f cs = .ok (s, r) → r <:+ cs := by
  induction f with
  | zero => intro cs s r h; simp [parseStr] at h
  | succ f ih =>
    intro cs s r h
    cases cs with
    | nil => simp [parseStr] at h
    | cons c rest =>
      simp only [parseStr] at h
      split at h
      · cases h
        exact ⟨[c], rfl⟩
      · split at h
        · split at h
          · simp at h
          · rename_i e rest2
            split at h
            · split at h
              · rename_i h1 h2 h3 h4 rest3
                split at h
                · rename_i a b c2 d _
                  cases hrec : parseStr f rest3 with
                  | error e2 => rw [hrec] at h; simp [exceptBind_error] at h
                  | ok pr =>
                    obtain ⟨s1, r1⟩ := pr
                    rw [hrec] at h
                    simp only [exceptBind_ok] at h
                    cases h
                    exact (ih _ _ _ hrec).trans ⟨[c, e, h1, h2, h3, h4], rfl⟩
                · simp at h
              · simp at h
            · split at h
              · rename_i ec _
                cases hrec : parseStr f rest2 with
                | error e2 => rw [hrec] at h; simp [exceptBind_error] at h
                | ok pr =>
                  obtain ⟨s1, r1⟩ := pr
                  rw [hrec] at h
                  simp only [exceptBind_ok] at h
                  cases h
                  exact (ih _ _ _ hrec).trans ⟨[c, e], rfl⟩
              · simp at h
        · split at h
          · simp at h
          · cases hrec : parseStr f rest with
            | error e2 => rw [hrec] at h; simp [exceptBind_error] at h
            | ok pr =>
              obtain ⟨s1, r1⟩ := pr
              rw [hrec] at h
              simp only [exceptBind_ok] at h
              cases h
              exact (ih _ _ _ hrec).trans ⟨[c], rfl⟩

theorem numFrac_suffix (cs : List Char) (tok : List Char) (rest : List Char)
    (h : parseNumMag.numFrac cs = (tok, rest)) : rest <:+ cs := by
  unfold parseNumMag.numFrac at h
  split at h
  · rename_i r
    simp only at h
    split at h
    · cases h
      exact List.suffix_refl _
    · cases h
      exact (List.dropWhile_suffix _).trans ⟨['.'], rfl⟩
  · cases h
    exact List.suffix_refl _

theorem numExp_suffix (cs : List Char) (tok : List Char) (rest : List Char)
    (h : parseNumMag.numExp cs = (tok, rest)) : rest <:+ cs := by
  unfold parseNumMag.numExp at h
  split at h
  · rename_i e r
    split at h
    · rcases hr : r with _ | ⟨sgn, r3⟩ <;> rw [hr] at h <;> simp only at h
      · split at h
        · cases h
          exact List.suffix_refl _
        · cases h
          exact (List.dropWhile_suffix _).trans ⟨[e], rfl⟩
      · split at h
        · split at h
          · cases h
            exact List.suffix_refl _
          · cases h
            exact (List.dropWhile_suffix _).trans ⟨[e, sgn], rfl⟩
        · split at h
          · cases h
            exact List.suffix_refl _
          · cases h
            exact (List.dropWhile_suffix _).trans ⟨[e], rfl⟩
    · cases h
      exact List.suffix_refl _
  · cases h
    exact List.suffix_refl _

theorem parseNumMag_suffix (sign cs1 : List Char) (lit : String) (r : List Char)
    (h : parseNumMag sign cs1 = .ok (lit, r)) : r <:+ cs1 := by
  unfold parseNumMag at h
  split at h
  · simp at h
  · rename_i d ds
    split at h
    · rcases hf : parseNumMag.numFrac ds with ⟨ftok, frest⟩
      rw [hf] at h
      simp only at h
      rcases he : parseNumMag.numExp frest with ⟨etok, erest⟩
      rw [he] at h
      simp only at h
      cases h
      exact ((numExp_suffix _ _ _ he).trans (numFrac_suffix _ _ _ hf)).trans ⟨[d], rfl⟩
    · split at h
      · simp only at h
        rcases hf : parseNumMag.numFrac (List.dropWhile Char.isDigit (d :: ds)) with ⟨ftok, frest⟩
        rw [hf] at h
        simp only at h
        rcases he : parseNumMag.numExp frest with ⟨etok, erest⟩
        rw [he] at h
        simp only at h
        cases h
        exact ((numExp_suffix _ _ _ he).trans (numFrac_suffix _ _ _ hf)).trans
          (List.dropWhile_suffix _)
      · simp at h

theorem parseNumber_suffix (cs : List Char) (lit : String) (r : List Char)
    (h : parseNumber cs = .ok (lit, r)) : r <:+ cs := by
  unfold parseNumber at h
  split at h
  · exact (parseNumMag_suffix _ _ _ _ h).trans ⟨['-'], rfl⟩
  · exact parseNumMag_suffix _ _ _ _ h

/-- The JSON parse functions only consume input: the remaining text they
return is a suffix of what they were given. -/
theorem parse_family_suffix (f : Nat) :
    (∀ cs v r, parseValue f cs = .ok (v, r) → r <:+ cs)
    ∧ (∀ cs v r, parseObjBody f cs = .ok (v, r) → r <:+ cs)
    ∧ (∀ key cs acc v r, parseObjRest f key cs acc = .ok (v, r) → r <:+ cs)
    ∧ (∀ cs v r, parseArrBody f cs = .ok (v, r) → r <:+ cs)
    ∧ (∀ cs acc v r, parseArrRest f cs acc = .ok (v, r) → r <:+ cs) := by
  induction f with
  | zero =>
    refine ⟨?_, ?_, ?_, ?_, ?_⟩ <;> intros <;> rename_i h <;>
      simp [parseValue, parseObjBody, parseObjRest, parseArrBody, parseArrRest] at h
  | succ f ih =>
    obtain ⟨ihV, ihOB, ihOR, ihAB, ihAR⟩ := ih
    refine ⟨?_, ?_, ?_, ?_, ?_⟩
    · -- parseValue
      intro cs v r h
      simp only [parseValue] at h
      cases hsw : skipWs cs with
      | nil => rw [hsw] at h; simp at h
      | cons c rest =>
        rw [hsw] at h
        simp only at h
        have hrest : rest <:+ cs := skipWs_cons_suffix hsw
        have hcons : (c :: rest) <:+ cs := by
          rw [← hsw]; exact skipWs_suffix cs
        split at h
        · cases hps : parseStr (f + 1) rest with
          | error e2 => rw [hps] at h; simp [exceptBind_error] at h
          | ok pr =>
            obtain ⟨s1, r1⟩ := pr
            rw [hps] at h
            simp only [exceptBind_ok] at h
            cases h
            exact (parseStr_suffix _ _ _ _ hps).trans hrest
        · split at h
          · exact (ihOB rest v r h).trans hrest
          · split at h
            · exact (ihAB rest v r h).trans hrest
            · split at h
              · rename_i heq
                cases h
                exact (List.IsSuffix.trans ⟨['t', 'r', 'u', 'e'], heq.symm⟩ hcons)
              · rename_i heq
                cases h
                exact (List.IsSuffix.trans ⟨['f', 'a', 'l', 's', 'e'], heq.symm⟩ hcons)
              · rename_i heq
                cases h
                exact (List.IsSuffix.trans ⟨['n', 'u', 'l', 'l'], heq.symm⟩ hcons)
              · cases hpn : parseNumber (c :: rest) with
                | error e2 => rw [hpn] at h; simp [exceptBind_error] at h
                | ok pr =>
                  obtain ⟨lit, r1⟩ := pr
                  rw [hpn] at h
                  simp only [exceptBind_ok] at h
                  cases h
                  exact (parseNumber_suffix _ _ _ hpn).trans hcons
    · -- parseObjBody
      intro cs v r h
      simp only [parseObjBody] at h
      cases hsw : skipWs cs with
      | nil => rw [hsw] at h; simp at h
      | cons c rest =>
        rw [hsw] at h
        simp only at h
        have hrest : rest <:+ cs := skipWs_cons_suffix hsw
        split at h
        · cases h
          exact hrest
        · split at h
          · cases hps : parseStr (f + 1) rest with
            | error e2 => rw [hps] at h; simp [exceptBind_error] at h
            | ok pr =>
              obtain ⟨k, r1⟩ := pr
              rw [hps] at h
              simp only [exceptBind_ok] at h
              exact ((ihOR _ _ _ _ _ h).trans (parseStr_suffix _ _ _ _ hps)).trans hrest
          · simp at h
    · -- parseObjRest
      intro key cs acc v r h
      simp only [parseObjRest] at h
      split at h
      · rename_i r1 hsw
        cases hpv : parseValue f r1 with
        | error e2 => rw [hpv] at h; simp [exceptBind_error] at h
        | ok pr =>
          obtain ⟨v2, r2⟩ := pr
          rw [hpv] at h
          simp only [exceptBind_ok] at h
          have hr2 : r2 <:+ cs :=
            ((ihV _ _ _ hpv).trans (skipWs_cons_suffix hsw))
          split at h
          · rename_i r3 hsw2
            split at h
            · rename_i r4 hsw3
              cases hps : parseStr f r4 with
              | error e2 => rw [hps] at h; simp [exceptBind_error] at h
              | ok pr2 =>
                obtain ⟨k2, r5⟩ := pr2
                rw [hps] at h
                simp only [exceptBind_ok] at h
                exact ((((ihOR _ _ _ _ _ h).trans (parseStr_suffix _ _ _ _ hps)).trans
                  (skipWs_cons_suffix hsw3)).trans (skipWs_cons_suffix hsw2)).trans hr2
            · simp at h
          · split at h
            · rename_i c2 r3 hsw2 hc2
              cases h
              exact (skipWs_cons_suffix hsw2).trans hr2
            · simp at h
          · simp at h
      · simp at h
    · -- parseArrBody
      intro cs v r h
      simp only [parseArrBody] at h
      split at h
      · rename_i rest hsw
        cases h
        exact skipWs_cons_suffix hsw
      · exact ihAR _ _ _ _ h
    · -- parseArrRest
      intro cs acc v r h
      simp only [parseArrRest] at h
      cases hpv : parseValue f cs with
      | error e2 => rw [hpv] at h; simp [exceptBind_error] at h
      | ok pr =>
        obtain ⟨v1, r1⟩ := pr
        rw [hpv] at h
        simp only [exceptBind_ok] at h
        have hr1 : r1 <:+ cs := ihV _ _ _ hpv
        split at h
        · rename_i r2 hsw
          exact ((ihAR _ _ _ _ h).trans (skipWs_cons_suffix hsw)).trans hr1
        · rename_i r2 hsw
          cases h
          exact (skipWs_cons_suffix hsw).trans hr1
        · simp at h

theorem ends_rbrace_lift {a b r : List Char}
    (h1 : ∃ pre, a = pre ++ rbrace :: r) (h2 : a <:+ b) :
    ∃ pre, b = pre ++ rbrace :: r := by
  obtain ⟨pre, rfl⟩ := h1
  obtain ⟨t, rfl⟩ := h2
  exact ⟨t ++ pre, by rw [List.append_assoc]⟩

/-- A successful object parse consumes a closing brace as its final
character: the input splits as some prefix, the closing brace, then exactly
the remaining text returned.  The array parsers are included to record that
they never return an object. -/
theorem parse_obj_ends_rbrace (f : Nat) :
    (∀ cs kvs r, parseValue f cs = .ok (.obj kvs, r) → ∃ pre, cs = pre ++ rbrace :: r)
    ∧ (∀ cs v r, parseObjBody f cs = .ok (v, r) → ∃ pre, cs = pre ++ rbrace :: r)
    ∧ (∀ key cs acc v r, parseObjRest f key cs acc = .ok (v, r) →
        ∃ pre, cs = pre ++ rbrace :: r)
    ∧ (∀ cs v r, parseArrBody f cs = .ok (v, r) → ∃ es, v = JValue.arr es)
    ∧ (∀ cs acc v r, parseArrRest f cs acc = .ok (v, r) → ∃ es, v = JValue.arr es) := by
  induction f with
  | zero =>
    refine ⟨?_, ?_, ?_, ?_, ?_⟩ <;> intros <;> rename_i h <;>
      simp [parseValue, parseObjBody, parseObjRest, parseArrBody, parseArrRest] at h
  | succ f ih =>
    obtain ⟨ihV, ihOB, ihOR, ihAB, ihAR⟩ := ih
    refine ⟨?_, ?_, ?_, ?_, ?_⟩
    · -- parseValue
      intro cs kvs r h
      simp only [parseValue] at h
      cases hsw : skipWs cs with
      | nil => rw [hsw] at h; simp at h
      | cons c rest =>
        rw [hsw] at h
        simp only at h
        have hrest : rest <:+ cs := skipWs_cons_suffix hsw
        split at h
        · cases hps : parseStr (f + 1) rest with
          | error e2 => rw [hps] at h; simp [exceptBind_error] at h
          | ok pr =>
            obtain ⟨s1, r1⟩ := pr
            rw [hps] at h
            simp only [exceptBind_ok] at h
            simp at h
        · split at h
          · exact ends_rbrace_lift (ihOB rest _ r h) hrest
          · split at h
            · obtain ⟨es, hes⟩ := ihAB rest _ r h
              simp at hes
            · split at h
              · simp at h
              · simp at h
              · simp at h
              · cases hpn : parseNumber (c :: rest) with
                | error e2 => rw [hpn] at h; simp [exceptBind_error] at h
                | ok pr =>
                  obtain ⟨lit, r1⟩ := pr
                  rw [hpn] at h
                  simp only [exceptBind_ok] at h
                  simp at h
    · -- parseObjBody
      intro cs v r h
      simp only [parseObjBody] at h
      cases hsw : skipWs cs with
      | nil => rw [hsw] at h; simp at h
      | cons c rest =>
        rw [hsw] at h
        simp only at h
        have hrest : rest <:+ cs := skipWs_cons_suffix hsw
        split at h
        · rename_i hc
          cases h
          obtain ⟨pre, hpre⟩ := skipWs_split hsw
          exact ⟨pre, by rw [hpre, hc]⟩
        · split at h
          · cases hps : parseStr (f + 1) rest with
            | error e2 => rw [hps] at h; simp [exceptBind_error] at h
            | ok pr =>
              obtain ⟨k, r1⟩ := pr
              rw [hps] at h
              simp only [exceptBind_ok] at h
              exact ends_rbrace_lift (ihOR _ _ _ _ _ h)
                ((parseStr_suffix _ _ _ _ hps).trans hrest)
          · simp at h
    · -- parseObjRest
      intro key cs acc v r h
      simp only [parseObjRest] at h
      split at h
      · rename_i r1 hsw
        cases hpv : parseValue f r1 with
        | error e2 => rw [hpv] at h; simp [exceptBind_error] at h
        | ok pr =>
          obtain ⟨v2, r2⟩ := pr
          rw [hpv] at h
          simp only [exceptBind_ok] at h
          have hr2 : r2 <:+ cs :=
            ((parse_family_suffix f).1 _ _ _ hpv).trans (skipWs_cons_suffix hsw)
          split at h
          · rename_i r3 hsw2
            split at h
            · rename_i r4 hsw3
              cases hps : parseStr f r4 with
              | error e2 => rw [hps] at h; simp [exceptBind_error] at h
              | ok pr2 =>
                obtain ⟨k2, r5⟩ := pr2
                rw [hps] at h
                simp only [exceptBind_ok] at h
                refine ends_rbrace_lift (ihOR _ _ _ _ _ h) ?_
                exact (((parseStr_suffix _ _ _ _ hps).trans
                  (skipWs_cons_suffix hsw3)).trans (skipWs_cons_suffix hsw2)).trans hr2
            · simp at h
          · rename_i c2 r3 hsw2
            split at h
            · rename_i hc2
              cases h
              obtain ⟨pre2, hpre2⟩ := skipWs_split hsw2
              exact ends_rbrace_lift ⟨pre2, by rw [hpre2, hc2]⟩ hr2
            · simp at h
          · simp at h
      · simp at h
    · -- parseArrBody
      intro cs v r h
      simp only [parseArrBody] at h
      split at h
      · cases h
        exact ⟨[], rfl⟩
      · exact ihAR _ _ _ _ h
    · -- parseArrRest
      intro cs acc v r h
      simp only [parseArrRest] at h
      cases hpv : parseValue f cs with
      | error e2 => rw [hpv] at h; simp [exceptBind_error] at h
      | ok pr =>
        obtain ⟨v1, r1⟩ := pr
        rw [hpv] at h
        simp only [exceptBind_ok] at h
        split at h
        · exact ihAR _ _ _ _ h
        · cases h
          exact ⟨acc ++ [v1], rfl⟩
        · simp at h

theorem jsonWs_pySpace (c : Char) (h : isJsonWs c = true) : isPySpace c = true := by
  simp only [isJsonWs, Bool.or_eq_true, decide_eq_true_eq] at h
  rcases h with ((h | h) | h) | h <;> subst h <;> rfl

/-- A right-strip-fixed list does not end in whitespace. -/
theorem rstripWs_fixed_getLast {l : List Char} (hfix : rstripWs l = l) {x : Char}
    (hx : l.getLast? = some x) : isPySpace x = false := by
  have h1 : l.reverse.head? = some x := by rw [List.head?_reverse]; exact hx
  have h2 : l.reverse.dropWhile isPySpace = l.reverse := by
    have h3 := congrArg List.reverse hfix
    rwa [rstripWs, List.reverse_reverse] at h3
  have h4 := List.head?_dropWhile_not isPySpace l.reverse
  rw [h2, h1] at h4
  exact h4

/-- The stripped payload is right-strip fixed. -/
theorem stripWs_rstrip_fixed (l : List Char) : rstripWs (stripWs l) = stripWs l := by
  rw [stripWs]
  generalize lstripWs l = q
  rw [rstripWs, rstripWs, List.reverse_reverse]
  congr 1
  cases hd : q.reverse.dropWhile isPySpace with
  | nil => rfl
  | cons x xs => rw [List.dropWhile_cons_of_neg (by simp [dropWhile_head_false hd])]

/-- If a right-strip-fixed text parses (via `json.loads`) as an object, it
ends with the closing brace. -/
theorem jsonLoads_obj_getLast (l : List Char) (kvs : List (String × JValue))
    (hfix : rstripWs l = l)
    (h : jsonLoads l = .ok (.obj kvs)) : l.getLast? = some rbrace := by
  unfold jsonLoads at h
  cases hp : parseValue (l.length + 16) l with
  | error e => rw [hp] at h; simp [exceptBind_error] at h
  | ok pr =>
    obtain ⟨v, rest⟩ := pr
    rw [hp] at h
    simp only [exceptBind_ok] at h
    split at h
    · cases h
      rename_i hempty
      obtain ⟨pre, hsplit⟩ := (parse_obj_ends_rbrace (l.length + 16)).1 l kvs rest hp
      have hallws : ∀ x ∈ rest, isPySpace x = true := by
        intro x hx
        refine jsonWs_pySpace x ?_
        have h6 : skipWs rest = [] := by rwa [List.isEmpty_iff] at hempty
        exact List.dropWhile_eq_nil_iff.mp h6 x hx
      cases hgl : rest.getLast? with
      | none =>
        have hrnil : rest = [] := by rwa [List.getLast?_eq_none_iff] at hgl
        rw [hsplit, hrnil]
        exact List.getLast?_concat _
      | some x =>
        exfalso
        obtain ⟨ys, hys⟩ := List.getLast?_eq_some_iff.mp hgl
        have hlx : l.getLast? = some x := by
          have hassoc : l = (pre ++ rbrace :: ys) ++ [x] := by
            rw [hsplit, hys]
            simp
          rw [hassoc, List.getLast?_concat]
        have hxws : isPySpace x = true := hallws x (by rw [hys]; simp)
        rw [rstripWs_fixed_getLast hfix hlx] at hxws
        exact Bool.noConfusion hxws
    · simp at h

/-! ## C8: a trailing end-of-call marker does not change dispatch -/

/-- C8: for every registered custom tool, every JSON-object payload and
every session id, dispatching the payload with the end-of-call marker
`"<|observation|>"` appended returns the same observation sequence as
dispatching the payload without it. -/
theorem dispatch_marker_stripped (t : PredefTools) (hooks : List (String × HookFn))
    (tool_name p session_id : String) (hk : HookFn) (kvs : List (String × JValue))
    (hpre : alistLookup (ALL_TOOLS t) tool_name = none)
    (hhook : alistLookup hooks tool_name = some hk)
    (hobj : jsonLoads (stripWs p.data) = .ok (.obj kvs)) :
    dispatch_tool t hooks tool_name (p ++ markerString) session_id
      = dispatch_tool t hooks tool_name p session_id := by
  have hend : (stripWs p.data).getLast? = some rbrace :=
    jsonLoads_obj_getLast _ kvs (stripWs_rstrip_fixed p.data) hobj
  have hsufm : ∀ c ∈ markerString.data, c ∈ markerChars := by decide
  have hproc : processedCode (p ++ markerString) = processedCode p := by
    rw [processedCode, processedCode, String.data_append]
    exact processed_append_marker_suffix p.data markerString.data hsufm hend
  unfold dispatch_tool
  simp only [hpre, hproc]

/-- Witness for C8: the spec test case, a two-argument JSON payload with
and without the trailing marker. -/
theorem dispatch_marker_stripped_witness :
    dispatch_tool echoPredef [("add", arityHook)] "add"
        ("\x7b\"a\": 1, \"b\": 1\x7d" ++ markerString) "s1"
      = dispatch_tool echoPredef [("add", arityHook)] "add"
        "\x7b\"a\": 1, \"b\": 1\x7d" "s1" :=
  dispatch_marker_stripped echoPredef [("add", arityHook)] "add"
    "\x7b\"a\": 1, \"b\": 1\x7d" "s1" arityHook
    [("a", JValue.num "1"), ("b", JValue.num "1")] rfl rfl rfl

/-! ## C10: marker removal is character-set based -/

/-- C10: the end-of-call marker removal is character-set based, not
literal-token based — `dispatch_tool` removes from the whitespace-stripped
payload the maximal trailing run of characters drawn from the set
`{<, |, o, b, s, e, r, v, a, t, i, n, >}`: any trailing text drawn from
that set (in particular several consecutive markers, or marker-letter text
with no complete marker) is removed and dispatch is unaffected by it; the
two closed equations exhibit a doubled marker and a partial-marker tail
being fully removed. -/
theorem dispatch_marker_charset :
    (∀ (t : PredefTools) (hooks : List (String × HookFn))
      (tool_name p session_id : String) (suffix : List Char),
      alistLookup (ALL_TOOLS t) tool_name = none →
      (∀ c ∈ suffix, c ∈ markerChars) →
      (stripWs p.data).getLast? = some rbrace →
      dispatch_tool t hooks tool_name (p ++ String.mk suffix) session_id
        = dispatch_tool t hooks tool_name p session_id)
    ∧ processedCode "\x7b\"a\": 1\x7d<|observation|><|observation|>"
        = "\x7b\"a\": 1\x7d".data
    ∧ processedCode "\x7b\"a\": 1\x7dobservation>" = "\x7b\"a\": 1\x7d".data := by
  refine ⟨?_, rfl, rfl⟩
  intro t hooks tool_name p session_id suffix hpre hsuf hend
  have hproc : processedCode (p ++ String.mk suffix) = processedCode p := by
    rw [processedCode, processedCode, String.data_append]
    exact processed_append_marker_suffix p.data suffix hsuf hend
  unfold dispatch_tool
  simp only [hpre, hproc]

/-- Witness for C10: trailing marker-letter junk that is not a complete
marker is removed, leaving dispatch unchanged. -/
theorem dispatch_marker_charset_witness :
    dispatch_tool echoPredef [("add", arityHook)] "add"
        ("\x7b\"a\": 1\x7d" ++ String.mk ['o', 'b', 's', '<', '|']) "s1"
      = dispatch_tool echoPredef [("add", arityHook)] "add" "\x7b\"a\": 1\x7d" "s1" :=
  dispatch_marker_charset.1 echoPredef [("add", arityHook)] "add" "\x7b\"a\": 1\x7d" "s1"
    ['o', 'b', 's', '<', '|'] rfl (by decide) rfl

/-! ## C9: `get_tools` returns a deep copy — heap model

`get_tools` returns `copy.deepcopy(_TOOL_DESCRIPTIONS)`.  Whether a caller
can mutate registry internals through the returned value is an aliasing
property, so this section models the Python object graph explicitly: a heap
is a list of cells (Python lists or dicts) addressed by index; strings and
booleans are immutable scalars held inline.  `copyVal` is `copy.deepcopy`
(the structures at hand are trees, so the deepcopy memo plays no role);
`readVal` reads the pure tree reachable from a value; `setCell` is an
arbitrary in-place mutation of one heap object, standing for any mutation a
caller performs on the returned list. -/

/-- A Python value: an immutable scalar or a reference to a heap cell. -/
inductive HVal where
  | str (s : String)
  | bool (b : Bool)
  | ref (a : Nat)
  deriving Repr, DecidableEq

/-- A mutable heap cell: a Python list or dict. -/
inductive HCell where
  | list (elems : List HVal)
  | dict (entries : List (String × HVal))
  deriving Repr, DecidableEq

/-- The heap: cell at address `a` is the `a`-th entry. -/
abbrev Heap := List HCell

/-- The values a cell holds. -/
def HCell.vals : HCell → List HVal
  | .list es => es
  | .dict en => en.map Prod.snd

/-- Every reference of the value points below `n`. -/
def valBelowB (n : Nat) : HVal → Bool
  | .ref a => a < n
  | _ => true

/-- Every reference of the value points at or above `n`. -/
def valAboveB (n : Nat) : HVal → Bool
  | .ref a => n ≤ a
  | _ => true

def cellBelowB (n : Nat) (c : HCell) : Bool := c.vals.all (valBelowB n)

def cellAboveB (n : Nat) (c : HCell) : Bool := c.vals.all (valAboveB n)

/-- The registry-side well-formedness of a heap: every cell only references
cells of the heap itself. -/
def heapClosedB (h : Heap) : Bool := h.all (cellBelowB h.length)

/-- In-place mutation of one heap object. -/
def setCell (h : Heap) (a : Nat) (c : HCell) : Heap := h.set a c

mutual

/-- `copy.deepcopy` of a value over a heap: scalars are returned as-is, a
reference is copied by deep-copying the cell contents and allocating a
fresh cell at the end of the heap. -/
def copyVal : Nat → Heap → HVal → Option (Heap × HVal)
  | 0, _, _ => none
  | _ + 1, h, .str s => some (h, .str s)
  | _ + 1, h, .bool b => some (h, .bool b)
  | f + 1, h, .ref a =>
    match h[a]? with
    | none => none
    | some (.list es) =>
      match copyVals f h es with
      | none => none
      | some (h1, es1) => some (h1 ++ [HCell.list es1], .ref h1.length)
    | some (.dict en) =>
      match copyEntries f h en with
      | none => none
      | some (h1, en1) => some (h1 ++ [HCell.dict en1], .ref h1.length)

def copyVals : Nat → Heap → List HVal → Option (Heap × List HVal)
  | 0, _, _ => none
  | _ + 1, h, [] => some (h, [])
  | f + 1, h, v :: vs =>
    match copyVal f h v with
    | none => none
    | some (h1, v1) =>
      match copyVals f h1 vs with
      | none => none
      | some (h2, vs1) => some (h2, v1 :: vs1)

def copyEntries : Nat → Heap → List (String × HVal) →
    Option (Heap × List (String × HVal))
  | 0, _, _ => none
  | _ + 1, h, [] => some (h, [])
  | f + 1, h, (k, v) :: vs =>
    match copyVal f h v with
    | none => none
    | some (h1, v1) =>
      match copyEntries f h1 vs with
      | none => none
      | some (h2, vs1) => some (h2, (k, v1) :: vs1)

end

/-- The pure tree of values reachable from a Python value. -/
inductive PureVal where
  | str (s : String)
  | bool (b : Bool)
  | list (xs : List PureVal)
  | dict (en : List (String × PureVal))

mutual

/-- Read the pure tree reachable from a value. -/
def readVal : Nat → Heap → HVal → Option PureVal
  | 0, _, _ => none
  | _ + 1, _, .str s => some (.str s)
  | _ + 1, _, .bool b => some (.bool b)
  | f + 1, h, .ref a =>
    match h[a]? with
    | none => none
    | some (.list es) =>
      match readVals f h es with
      | none => none
      | some xs => some (.list xs)
    | some (.dict en) =>
      match readEntries f h en with
      | none => none
      | some xs => some (.dict xs)

def readVals : Nat → Heap → List HVal → Option (List PureVal)
  | 0, _, _ => none
  | _ + 1, _, [] => some []
  | f + 1, h, v :: vs =>
    match readVal f h v with
    | none => none
    | some p =>
      match readVals f h vs with
      | none => none
      | some ps => some (p :: ps)

def readEntries : Nat → Heap → List (String × HVal) →
    Option (List (String × PureVal))
  | 0, _, _ => none
  | _ + 1, _, [] => some []
  | f + 1, h, (k, v) :: vs =>
    match readVal f h v with
    | none => none
    | some p =>
      match readEntries f h vs with
      | none => none
      | some ps => some ((k, p) :: ps)

end

/-- `get_tools` on the heap model: `copy.deepcopy` of the value of
`_TOOL_DESCRIPTIONS` (`root`), returning the extended heap and the fresh
reference handed to the caller. -/
def get_tools_h (f : Nat) (h : Heap) (root : HVal) : Option (Heap × HVal) :=
  copyVal f h root

theorem getElem?_append_lt {α : Type} {l1 l2 : List α} {a : Nat} (ha : a < l1.length) :
    (l1 ++ l2)[a]? = l1[a]? := by
  rw [List.getElem?_append, if_pos ha]

theorem getElem?_some_lt {α : Type} {l : List α} {a : Nat} {c : α}
    (h : l[a]? = some c) : a < l.length := by
  by_contra hna
  push_neg at hna
  rw [List.getElem?_eq_none hna] at h
  exact Option.noConfusion h

/-- Reading is stable under extending the heap with fresh cells. -/
theorem read_extend (fr : Nat) :
    (∀ h ext v p, readVal fr h v = some p → readVal fr (h ++ ext) v = some p)
    ∧ (∀ h ext vs ps, readVals fr h vs = some ps → readVals fr (h ++ ext) vs = some ps)
    ∧ (∀ h ext en ps, readEntries fr h en = some ps →
        readEntries fr (h ++ ext) en = some ps) := by
  induction fr with
  | zero =>
    refine ⟨?_, ?_, ?_⟩ <;> intros <;> rename_i hread <;>
      simp [readVal, readVals, readEntries] at hread
  | succ fr ih =>
    obtain ⟨ihV, ihL, ihE⟩ := ih
    refine ⟨?_, ?_, ?_⟩
    · intro h ext v p hr
      cases v with
      | str s => exact hr
      | bool b => exact hr
      | ref a =>
        simp only [readVal] at hr ⊢
        cases hga : h[a]? with
        | none => simp only [hga] at hr; exact Option.noConfusion hr
        | some c =>
          simp only [getElem?_append_lt (getElem?_some_lt hga), hga] at hr ⊢
          cases c with
          | list es =>
            cases hres : readVals fr h es with
            | none => simp only [hres] at hr; exact Option.noConfusion hr
            | some xs =>
              simp only [hres] at hr
              simp only [ihL h ext es xs hres]
              exact hr
          | dict en =>
            cases hres : readEntries fr h en with
            | none => simp only [hres] at hr; exact Option.noConfusion hr
            | some xs =>
              simp only [hres] at hr
              simp only [ihE h ext en xs hres]
              exact hr
    · intro h ext vs ps hr
      cases vs with
      | nil => exact hr
      | cons v vs =>
        simp only [readVals] at hr ⊢
        cases hrv : readVal fr h v with
        | none => simp only [hrv] at hr; exact Option.noConfusion hr
        | some p1 =>
          simp only [hrv] at hr
          simp only [ihV h ext v p1 hrv]
          cases hrs : readVals fr h vs with
          | none => simp only [hrs] at hr; exact Option.noConfusion hr
          | some ps1 =>
            simp only [hrs] at hr
            simp only [ihL h ext vs ps1 hrs]
            exact hr
    · intro h ext en ps hr
      cases en with
      | nil => exact hr
      | cons kv vs =>
        obtain ⟨k, v⟩ := kv
        simp only [readEntries] at hr ⊢
        cases hrv : readVal fr h v with
        | none => simp only [hrv] at hr; exact Option.noConfusion hr
        | some p1 =>
          simp only [hrv] at hr
          simp only [ihV h ext v p1 hrv]
          cases hrs : readEntries fr h vs with
          | none => simp only [hrs] at hr; exact Option.noConfusion hr
          | some ps1 =>
            simp only [hrs] at hr
            simp only [ihE h ext vs ps1 hrs]
            exact hr

theorem valAboveB_mono {m n : Nat} (hmn : m ≤ n) : ∀ {v : HVal},
    valAboveB n v = true → valAboveB m v = true := by
  intro v h
  cases v with
  | ref a =>
    simp only [valAboveB, decide_eq_true_eq] at h ⊢
    omega
  | str s => rfl
  | bool b => rfl

theorem cellAboveB_mono {m n : Nat} (hmn : m ≤ n) {c : HCell}
    (h : cellAboveB n c = true) : cellAboveB m c = true := by
  simp only [cellAboveB, List.all_eq_true] at h ⊢
  intro v hv
  exact valAboveB_mono hmn (h v hv)

theorem allAboveB_mono {m n : Nat} (hmn : m ≤ n) {vs : List HVal}
    (h : vs.all (valAboveB n) = true) : vs.all (valAboveB m) = true := by
  simp only [List.all_eq_true] at h ⊢
  intro v hv
  exact valAboveB_mono hmn (h v hv)

theorem length_le_of_ext {h h1 : Heap} (he : ∃ ext, h1 = h ++ ext) :
    h.length ≤ h1.length := by
  obtain ⟨ext, rfl⟩ := he
  simp

/-- What `copy.deepcopy` does to the heap: it only appends fresh cells, the
returned value references only fresh cells, and every appended cell
references only fresh cells. -/
theorem copy_spec (fc : Nat) :
    (∀ h v h2 v2, copyVal fc h v = some (h2, v2) →
      (∃ ext, h2 = h ++ ext)
      ∧ valAboveB h.length v2 = true
      ∧ ∀ a c, h.length ≤ a → h2[a]? = some c → cellAboveB h.length c = true)
    ∧ (∀ h vs h2 vs2, copyVals fc h vs = some (h2, vs2) →
      (∃ ext, h2 = h ++ ext)
      ∧ vs2.all (valAboveB h.length) = true
      ∧ ∀ a c, h.length ≤ a → h2[a]? = some c → cellAboveB h.length c = true)
    ∧ (∀ h en h2 en2, copyEntries fc h en = some (h2, en2) →
      (∃ ext, h2 = h ++ ext)
      ∧ (en2.map Prod.snd).all (valAboveB h.length) = true
      ∧ ∀ a c, h.length ≤ a → h2[a]? = some c → cellAboveB h.length c = true) := by
  induction fc with
  | zero =>
    refine ⟨?_, ?_, ?_⟩ <;> intros <;> rename_i hcp <;>
      simp [copyVal, copyVals, copyEntries] at hcp
  | succ fc ih =>
    obtain ⟨ihV, ihL, ihE⟩ := ih
    have hnew : ∀ (h h1 : Heap) (cell : HCell),
        (∃ ext, h1 = h ++ ext) →
        cellAboveB h.length cell = true →
        (∀ a c, h.length ≤ a → h1[a]? = some c → cellAboveB h.length c = true) →
        ∀ a c, h.length ≤ a → (h1 ++ [cell])[a]? = some c →
          cellAboveB h.length c = true := by
      intro h h1 cell hext hcell hmid a c ha hget
      by_cases halt : a < h1.length
      · rw [getElem?_append_lt halt] at hget
        exact hmid a c ha hget
      · push_neg at halt
        by_cases heq : a = h1.length
        · subst heq
          rw [List.getElem?_concat_length] at hget
          cases hget
          exact hcell
        · have : h1.length + 1 ≤ a := by omega
          rw [List.getElem?_eq_none (by simp; omega)] at hget
          exact Option.noConfusion hget
    refine ⟨?_, ?_, ?_⟩
    · intro h v h2 v2 hcp
      cases v with
      | str s =>
        cases hcp
        exact ⟨⟨[], by simp⟩, rfl, fun a c ha hget => by
          rw [List.getElem?_eq_none (by simpa using ha)] at hget
          exact Option.noConfusion hget⟩
      | bool b =>
        cases hcp
        exact ⟨⟨[], by simp⟩, rfl, fun a c ha hget => by
          rw [List.getElem?_eq_none (by simpa using ha)] at hget
          exact Option.noConfusion hget⟩
      | ref a0 =>
        simp only [copyVal] at hcp
        cases hga : h[a0]? with
        | none => simp only [hga] at hcp; exact Option.noConfusion hcp
        | some c0 =>
          simp only [hga] at hcp
          cases c0 with
          | list es =>
            cases hcl : copyVals fc h es with
            | none => simp only [hcl] at hcp; exact Option.noConfusion hcp
            | some pr =>
              obtain ⟨h1, es1⟩ := pr
              simp only [hcl] at hcp
              cases hcp
              obtain ⟨hext, hall, hmid⟩ := ihL h es _ _ hcl
              refine ⟨?_, ?_, ?_⟩
              · obtain ⟨ext1, rfl⟩ := hext
                exact ⟨ext1 ++ [HCell.list es1], by rw [List.append_assoc]⟩
              · simp only [valAboveB, decide_eq_true_eq]
                exact length_le_of_ext hext
              · exact hnew h h1 (HCell.list es1) hext (by simpa [cellAboveB, HCell.vals] using hall) hmid
          | dict en =>
            cases hcl : copyEntries fc h en with
            | none => simp only [hcl] at hcp; exact Option.noConfusion hcp
            | some pr =>
              obtain ⟨h1, en1⟩ := pr
              simp only [hcl] at hcp
              cases hcp
              obtain ⟨hext, hall, hmid⟩ := ihE h en _ _ hcl
              refine ⟨?_, ?_, ?_⟩
              · obtain ⟨ext1, rfl⟩ := hext
                exact ⟨ext1 ++ [HCell.dict en1], by rw [List.append_assoc]⟩
              · simp only [valAboveB, decide_eq_true_eq]
                exact length_le_of_ext hext
              · exact hnew h h1 (HCell.dict en1) hext (by simpa [cellAboveB, HCell.vals] using hall) hmid
    · intro h vs h2 vs2 hcp
      cases vs with
      | nil =>
        cases hcp
        exact ⟨⟨[], by simp⟩, rfl, fun a c ha hget => by
          rw [List.getElem?_eq_none (by simpa using ha)] at hget
          exact Option.noConfusion hget⟩
      | cons v vs =>
        simp only [copyVals] at hcp
        cases hcv : copyVal fc h v with
        | none => simp only [hcv] at hcp; exact Option.noConfusion hcp
        | some pr =>
          obtain ⟨h1, v1⟩ := pr
          simp only [hcv] at hcp
          cases hcl : copyVals fc h1 vs with
          | none => simp only [hcl] at hcp; exact Option.noConfusion hcp
          | some pr2 =>
            obtain ⟨h2a, vs1⟩ := pr2
            simp only [hcl] at hcp
            cases hcp
            obtain ⟨hext1, hv1, hmid1⟩ := ihV h v _ _ hcv
            obtain ⟨hext2, hvs1, hmid2⟩ := ihL h1 vs _ _ hcl
            have hle : h.length ≤ h1.length := length_le_of_ext hext1
            refine ⟨?_, ?_, ?_⟩
            · obtain ⟨ext1, rfl⟩ := hext1
              obtain ⟨ext2, rfl⟩ := hext2
              exact ⟨ext1 ++ ext2, by rw [List.append_assoc]⟩
            · simp only [List.all_cons, Bool.and_eq_true]
              exact ⟨hv1, allAboveB_mono hle hvs1⟩
            · intro a c ha hget
              by_cases halt : a < h1.length
              · obtain ⟨ext2, rfl⟩ := hext2
                rw [getElem?_append_lt halt] at hget
                exact hmid1 a c ha hget
              · push_neg at halt
                exact cellAboveB_mono hle (hmid2 a c halt hget)
    · intro h en h2 en2 hcp
      cases en with
      | nil =>
        cases hcp
        exact ⟨⟨[], by simp⟩, rfl, fun a c ha hget => by
          rw [List.getElem?_eq_none (by simpa using ha)] at hget
          exact Option.noConfusion hget⟩
      | cons kv vs =>
        obtain ⟨k, v⟩ := kv
        simp only [copyEntries] at hcp
        cases hcv : copyVal fc h v with
        | none => simp only [hcv] at hcp; exact Option.noConfusion hcp
        | some pr =>
          obtain ⟨h1, v1⟩ := pr
          simp only [hcv] at hcp
          cases hcl : copyEntries fc h1 vs with
          | none => simp only [hcl] at hcp; exact Option.noConfusion hcp
          | some pr2 =>
            obtain ⟨h2a, vs1⟩ := pr2
            simp only [hcl] at hcp
            cases hcp
            obtain ⟨hext1, hv1, hmid1⟩ := ihV h v _ _ hcv
            obtain ⟨hext2, hvs1, hmid2⟩ := ihE h1 vs _ _ hcl
            have hle : h.length ≤ h1.length := length_le_of_ext hext1
            refine ⟨?_, ?_, ?_⟩
            · obtain ⟨ext1, rfl⟩ := hext1
              obtain ⟨ext2, rfl⟩ := hext2
              exact ⟨ext1 ++ ext2, by rw [List.append_assoc]⟩
            · simp only [List.map_cons, List.all_cons, Bool.and_eq_true]
              exact ⟨hv1, allAboveB_mono hle hvs1⟩
            · intro a c ha hget
              by_cases halt : a < h1.length
              · obtain ⟨ext2, rfl⟩ := hext2
                rw [getElem?_append_lt halt] at hget
                exact hmid1 a c ha hget
              · push_neg at halt
                exact cellAboveB_mono hle (hmid2 a c halt hget)

/-- `copy.deepcopy` preserves the pure tree: whatever could be read from
the original value can be read, unchanged, from the copy in the extended
heap. -/
theorem copy_reads (fr : Nat) :
    (∀ fc h v h2 v2 p, copyVal fc h v = some (h2, v2) → readVal fr h v = some p →
      readVal fr h2 v2 = some p)
    ∧ (∀ fc h vs h2 vs2 ps, copyVals fc h vs = some (h2, vs2) →
      readVals fr h vs = some ps → readVals fr h2 vs2 = some ps)
    ∧ (∀ fc h en h2 en2 ps, copyEntries fc h en = some (h2, en2) →
      readEntries fr h en = some ps → readEntries fr h2 en2 = some ps) := by
  induction fr with
  | zero =>
    refine ⟨?_, ?_, ?_⟩ <;> intros <;> rename_i hread <;>
      simp [readVal, readVals, readEntries] at hread
  | succ fr ih =>
    obtain ⟨ihV, ihL, ihE⟩ := ih
    refine ⟨?_, ?_, ?_⟩
    · intro fc h v h2 v2 p hcp hr
      cases fc with
      | zero => simp [copyVal] at hcp
      | succ fc =>
        cases v with
        | str s => cases hcp; exact hr
        | bool b => cases hcp; exact hr
        | ref a =>
          simp only [copyVal] at hcp
          cases hga : h[a]? with
          | none => simp only [hga] at hcp; exact Option.noConfusion hcp
          | some c =>
            simp only [hga] at hcp
            simp only [readVal, hga] at hr
            cases c with
            | list es =>
              cases hcl : copyVals fc h es with
              | none => simp only [hcl] at hcp; exact Option.noConfusion hcp
              | some pr =>
                obtain ⟨h1, es1⟩ := pr
                simp only [hcl] at hcp
                cases hcp
                cases hres : readVals fr h es with
                | none => simp only [hres] at hr; exact Option.noConfusion hr
                | some xs =>
                  simp only [hres] at hr
                  cases hr
                  simp only [readVal, List.getElem?_concat_length]
                  have h3 : readVals fr h1 es1 = some xs := ihL fc h es h1 es1 xs hcl hres
                  rw [(read_extend fr).2.1 h1 [HCell.list es1] es1 xs h3]
            | dict en =>
              cases hcl : copyEntries fc h en with
              | none => simp only [hcl] at hcp; exact Option.noConfusion hcp
              | some pr =>
                obtain ⟨h1, en1⟩ := pr
                simp only [hcl] at hcp
                cases hcp
                cases hres : readEntries fr h en with
                | none => simp only [hres] at hr; exact Option.noConfusion hr
                | some xs =>
                  simp only [hres] at hr
                  cases hr
                  simp only [readVal, List.getElem?_concat_length]
                  have h3 : readEntries fr h1 en1 = some xs := ihE fc h en h1 en1 xs hcl hres
                  rw [(read_extend fr).2.2 h1 [HCell.dict en1] en1 xs h3]
    · intro fc h vs h2 vs2 ps hcp hr
      cases fc with
      | zero => simp [copyVals] at hcp
      | succ fc =>
        cases vs with
        | nil =>
          cases hcp
          exact hr
        | cons v vs =>
          simp only [copyVals] at hcp
          cases hcv : copyVal fc h v with
          | none => simp only [hcv] at hcp; exact Option.noConfusion hcp
          | some pr =>
            obtain ⟨h1, v1⟩ := pr
            simp only [hcv] at hcp
            cases hcl : copyVals fc h1 vs with
            | none => simp only [hcl] at hcp; exact Option.noConfusion hcp
            | some pr2 =>
              obtain ⟨h2a, vs1⟩ := pr2
              simp only [hcl] at hcp
              cases hcp
              simp only [readVals] at hr ⊢
              cases hrv : readVal fr h v with
              | none => simp only [hrv] at hr; exact Option.noConfusion hr
              | some p1 =>
                simp only [hrv] at hr
                cases hrs : readVals fr h vs with
                | none => simp only [hrs] at hr; exact Option.noConfusion hr
                | some ps1 =>
                  simp only [hrs] at hr
                  cases hr
                  obtain ⟨ext2, hext2⟩ := ((copy_spec fc).2.1 h1 vs _ _ hcl).1
                  have hv1 : readVal fr h1 v1 = some p1 := ihV fc h v h1 v1 p1 hcv hrv
                  have hv1b : readVal fr h2 v1 = some p1 := by
                    rw [hext2]
                    exact (read_extend fr).1 h1 ext2 v1 p1 hv1
                  have hvsb : readVals fr h1 vs = some ps1 := by
                    obtain ⟨ext1, hext1⟩ := ((copy_spec fc).1 h v _ _ hcv).1
                    rw [hext1]
                    exact (read_extend fr).2.1 h ext1 vs ps1 hrs
                  have hvs1 : readVals fr h2 vs1 = some ps1 :=
                    ihL fc h1 vs h2 vs1 ps1 hcl hvsb
                  rw [hv1b, hvs1]
    · intro fc h en h2 en2 ps hcp hr
      cases fc with
      | zero => simp [copyEntries] at hcp
      | succ fc =>
        cases en with
        | nil =>
          cases hcp
          exact hr
        | cons kv vs =>
          obtain ⟨k, v⟩ := kv
          simp only [copyEntries] at hcp
          cases hcv : copyVal fc h v with
          | none => simp only [hcv] at hcp; exact Option.noConfusion hcp
          | some pr =>
            obtain ⟨h1, v1⟩ := pr
            simp only [hcv] at hcp
            cases hcl : copyEntries fc h1 vs with
            | none => simp only [hcl] at hcp; exact Option.noConfusion hcp
            | some pr2 =>
              obtain ⟨h2a, vs1⟩ := pr2
              simp only [hcl] at hcp
              cases hcp
              simp only [readEntries] at hr ⊢
              cases hrv : readVal fr h v with
              | none => simp only [hrv] at hr; exact Option.noConfusion hr
              | some p1 =>
                simp only [hrv] at hr
                cases hrs : readEntries fr h vs with
                | none => simp only [hrs] at hr; exact Option.noConfusion hr
                | some ps1 =>
                  simp only [hrs] at hr
                  cases hr
                  obtain ⟨ext2, hext2⟩ := ((copy_spec fc).2.2 h1 vs _ _ hcl).1
                  have hv1 : readVal fr h1 v1 = some p1 := ihV fc h v h1 v1 p1 hcv hrv
                  have hv1b : readVal fr h2 v1 = some p1 := by
                    rw [hext2]
                    exact (read_extend fr).1 h1 ext2 v1 p1 hv1
                  have hvsb : readEntries fr h1 vs = some ps1 := by
                    obtain ⟨ext1, hext1⟩ := ((copy_spec fc).1 h v _ _ hcv).1
                    rw [hext1]
                    exact (read_extend fr).2.2 h ext1 vs ps1 hrs
                  have hvs1 : readEntries fr h2 vs1 = some ps1 :=
                    ihE fc h1 vs h2 vs1 ps1 hcl hvsb
                  rw [hv1b, hvs1]

/-- Reads of a structure lying entirely below `n` only depend on the heap
below `n`. -/
theorem read_agree (fr : Nat) :
    (∀ n (h h2 : Heap) v, (∀ a, a < n → h[a]? = h2[a]?) →
      (∀ a c, a < n → h[a]? = some c → cellBelowB n c = true) →
      valBelowB n v = true →
      readVal fr h v = readVal fr h2 v)
    ∧ (∀ n (h h2 : Heap) vs, (∀ a, a < n → h[a]? = h2[a]?) →
      (∀ a c, a < n → h[a]? = some c → cellBelowB n c = true) →
      vs.all (valBelowB n) = true →
      readVals fr h vs = readVals fr h2 vs)
    ∧ (∀ n (h h2 : Heap) en, (∀ a, a < n → h[a]? = h2[a]?) →
      (∀ a c, a < n → h[a]? = some c → cellBelowB n c = true) →
      (en.map Prod.snd).all (valBelowB n) = true →
      readEntries fr h en = readEntries fr h2 en) := by
  induction fr with
  | zero => exact ⟨fun _ _ _ _ _ _ _ => rfl, fun _ _ _ _ _ _ _ => rfl,
      fun _ _ _ _ _ _ _ => rfl⟩
  | succ fr ih =>
    obtain ⟨ihV, ihL, ihE⟩ := ih
    refine ⟨?_, ?_, ?_⟩
    · intro n h h2 v hagree hclosed hv
      cases v with
      | str s => rfl
      | bool b => rfl
      | ref a =>
        have halt : a < n := by
          simpa [valBelowB] using hv
        cases hga : h[a]? with
        | none => simp only [readVal, ← hagree a halt, hga]
        | some c =>
          cases c with
          | list es =>
            have hbelow : es.all (valBelowB n) = true := by
              simpa [cellBelowB, HCell.vals] using hclosed a _ halt hga
            simp only [readVal, ← hagree a halt, hga,
              ihL n h h2 es hagree hclosed hbelow]
          | dict en =>
            have hbelow : (en.map Prod.snd).all (valBelowB n) = true := by
              simpa [cellBelowB, HCell.vals] using hclosed a _ halt hga
            simp only [readVal, ← hagree a halt, hga,
              ihE n h h2 en hagree hclosed hbelow]
    · intro n h h2 vs hagree hclosed hvs
      cases vs with
      | nil => rfl
      | cons v vs =>
        simp only [List.all_cons, Bool.and_eq_true] at hvs
        simp only [readVals]
        rw [ihV n h h2 v hagree hclosed hvs.1, ihL n h h2 vs hagree hclosed hvs.2]
    · intro n h h2 en hagree hclosed hen
      cases en with
      | nil => rfl
      | cons kv vs =>
        obtain ⟨k, v⟩ := kv
        simp only [List.map_cons, List.all_cons, Bool.and_eq_true] at hen
        simp only [readEntries]
        rw [ihV n h h2 v hagree hclosed hen.1, ihE n h h2 vs hagree hclosed hen.2]

/-- C9: `get_tools` returns a defensive deep copy.  Over the object-graph
model: if the registry heap is closed (`heapClosedB`) and `root` is the
registry's `_TOOL_DESCRIPTIONS` value, then a successful
`get_tools_h` (that is, `copy.deepcopy`) (i) hands back a value whose
references are all fresh, (ii) allocates only cells that reference fresh
cells — so every object reachable from the returned value is fresh — and
(iii, iv) mutating ANY fresh cell, i.e. anything reachable from the
returned value, leaves every read of the registry's internal descriptor
store unchanged, so a subsequent `get_tools_h` still copies the original
descriptors (v). -/
theorem get_tools_deep_copy (h : Heap) (root : HVal) (fc fr : Nat)
    (h2 : Heap) (ret : HVal)
    (hclosed : heapClosedB h = true)
    (hroot : valBelowB h.length root = true)
    (hcopy : get_tools_h fc h root = some (h2, ret)) :
    (∀ p, readVal fr h root = some p → readVal fr h2 ret = some p)
    ∧ valAboveB h.length ret = true
    ∧ (∀ a c, h.length ≤ a → h2[a]? = some c → cellAboveB h.length c = true)
    ∧ (∀ a c, h.length ≤ a →
        readVal fr (setCell h2 a c) root = readVal fr h root)
    ∧ (∀ a c fc2 h3 ret2 p, h.length ≤ a →
        get_tools_h fc2 (setCell h2 a c) root = some (h3, ret2) →
        readVal fr h root = some p → readVal fr h3 ret2 = some p) := by
  have hclosed2 : ∀ a c, a < h.length → h[a]? = some c →
      cellBelowB h.length c = true := by
    intro a c _ hget
    have hmem : c ∈ h := List.getElem?_mem hget
    simpa using (List.all_eq_true.mp hclosed) c hmem
  obtain ⟨hext, habove, hcells⟩ := (copy_spec fc).1 h root h2 ret hcopy
  have hmut : ∀ a c, h.length ≤ a →
      readVal fr (setCell h2 a c) root = readVal fr h root := by
    intro a c ha
    refine ((read_agree fr).1 h.length (setCell h2 a c) h root ?_ ?_ hroot)
    · intro a2 ha2
      rw [setCell, List.getElem?_set_ne (by omega)]
      obtain ⟨ext, rfl⟩ := hext
      exact getElem?_append_lt ha2
    · intro a2 c2 ha2 hget
      rw [setCell, List.getElem?_set_ne (by omega)] at hget
      obtain ⟨ext, rfl⟩ := hext
      rw [getElem?_append_lt ha2] at hget
      exact hclosed2 a2 c2 ha2 hget
  refine ⟨?_, habove, hcells, hmut, ?_⟩
  · intro p hp
    exact (copy_reads fr).1 fc h root h2 ret p hcopy hp
  · intro a c fc2 h3 ret2 p ha hcopy2 hp
    have hp2 : readVal fr (setCell h2 a c) root = some p := by
      rw [hmut a c ha]
      exact hp
    exact (copy_reads fr).1 fc2 (setCell h2 a c) root h3 ret2 p hcopy2 hp2

/-- A concrete registry object graph: cell 3 is `_TOOL_DESCRIPTIONS`, a
list holding one tool-description dict (cell 0), whose `params` entry is a
list (cell 1) of one parameter dict (cell 2). -/
def demoHeap : Heap :=
  [HCell.dict [("name", .str "dup_tool"), ("description", .str "A duplicated tool."),
               ("params", .ref 1)],
   HCell.list [.ref 2],
   HCell.dict [("name", .str "a"), ("type", .str "int"), ("required", .bool true)],
   HCell.list [.ref 0]]

/-- The `_TOOL_DESCRIPTIONS` reference of the concrete registry. -/
def demoRoot : HVal := .ref 3

/-- The heap after `get_tools` (deep copy): four fresh cells 4..7 mirroring
2, 1, 0, 3; the caller receives the fresh reference 7. -/
def demoHeap2 : Heap :=
  demoHeap ++
  [HCell.dict [("name", .str "a"), ("type", .str "int"), ("required", .bool true)],
   HCell.list [.ref 4],
   HCell.dict [("name", .str "dup_tool"), ("description", .str "A duplicated tool."),
               ("params", .ref 5)],
   HCell.list [.ref 6]]

/-- Witness for C9: on the concrete registry graph, clobbering the very
list object returned by `get_tools` (cell 7) leaves every read of the
registry's own descriptor store unchanged. -/
theorem get_tools_deep_copy_witness :
    readVal 20 (setCell demoHeap2 7 (HCell.list [])) demoRoot
      = readVal 20 demoHeap demoRoot :=
  (get_tools_deep_copy demoHeap demoRoot 20 20 demoHeap2 (.ref 7)
    (by decide) (by decide) rfl).2.2.2.1 7 (HCell.list []) (by decide)

end GLM
